import Mathlib

/-!
Verification of the Documentation Extraction & Member Index subsystem of the
JavaDocForVsCode repository, against its specification.

The TypeScript sources are shallowly embedded: JS strings are modelled as
Lean `String` / `List Char`, JS numbers occurring as array indices or line
numbers as `Nat` (with `Int` where the source arithmetic can go negative),
JS `Map` as an association list with JS `Map.set`/`Map.get` semantics, and
the regular expressions appearing in the sources as explicit scanning
functions with JS backtracking semantics.

Embedded components (file of origin in the repository is noted per section):
  - binarySearchMethod            (utils/binarySearch.ts)
  - parseTagTable and helpers     (parser/TagParser.ts)
  - extractComment, extractFullSignature, parseMethod, parseField,
    flattenSymbols and the method/field list assembly  (parser/JavaDocParser.ts)
  - debounce                      (utils/debounce.ts), as a discrete-event model
  - updateHighlight               (SidebarProvider.ts)
-/

/-! ## JS character classes and string helpers -/

/-- The character set matched by the JS regex class `\s` (WhiteSpace plus
LineTerminator), also the set removed by `String.prototype.trim`. -/
def isJsWs (c : Char) : Bool :=
  c = ' ' || c = '\t' || c = '\n' || c.val = 0x0b || c.val = 0x0c || c = '\r' ||
  c.val = 0xa0 || c.val = 0x1680 || (0x2000 ≤ c.val && c.val ≤ 0x200a) ||
  c.val = 0x2028 || c.val = 0x2029 || c.val = 0x202f || c.val = 0x205f ||
  c.val = 0x3000 || c.val = 0xfeff

/-- The character set matched by the JS regex class `\w`. -/
def isWordChar (c : Char) : Bool :=
  ('a' ≤ c && c ≤ 'z') || ('A' ≤ c && c ≤ 'Z') || ('0' ≤ c && c ≤ '9') || c = '_'

/-- JS `String.prototype.trimStart` on a character list. -/
def jsTrimStartL (l : List Char) : List Char := l.dropWhile isJsWs

/-- JS `String.prototype.trim` on a character list. -/
def jsTrimL (l : List Char) : List Char :=
  ((l.dropWhile isJsWs).reverse.dropWhile isJsWs).reverse

/-- JS `String.prototype.trim`. -/
def jsTrim (s : String) : String := (jsTrimL s.toList).asString

theorem dropWhile_length_le {α : Type} (p : α → Bool) (l : List α) :
    (l.dropWhile p).length ≤ l.length := by
  induction l with
  | nil => simp [List.dropWhile]
  | cons a as ih =>
    simp only [List.dropWhile]
    split
    · exact Nat.le_succ_of_le ih
    · simp

/-- JS `s.replace(/\s+/g, " ")` (every maximal run of whitespace becomes one
space), written with an in-a-run flag so the recursion is structural.  The
flag records whether the previous character was whitespace. -/
def collapseWsF : Bool → List Char → List Char
  | _, [] => []
  | inWs, c :: rest =>
    if isJsWs c then
      if inWs then collapseWsF true rest else ' ' :: collapseWsF true rest
    else c :: collapseWsF false rest

/-- JS `s.replace(/\s+/g, " ")`. -/
def collapseWs (l : List Char) : List Char := collapseWsF false l

/-- JS `s.replace(/\s+/g, " ").trim()`, the signature-normalisation step. -/
def jsNormalize (l : List Char) : String := (jsTrimL (collapseWs l)).asString

/-- List-prefix test (the building block of JS `includes`/`endsWith`). -/
def startsWithL : List Char → List Char → Bool
  | [], _ => true
  | _ :: _, [] => false
  | a :: as, b :: bs => a = b && startsWithL as bs

/-- JS `haystack.includes(needle)`: scan for the first index where `needle`
is a prefix of the remaining text. -/
def jsIncludes (needle : List Char) : List Char → Bool
  | [] => startsWithL needle []
  | c :: rest => startsWithL needle (c :: rest) || jsIncludes needle rest

/-- JS `haystack.endsWith(needle)`. -/
def jsEndsWith (needle : List Char) (haystack : List Char) : Bool :=
  startsWithL needle.reverse haystack.reverse

/-- JS `Map.prototype.set`: overwrite the value if the key is present
(keeping insertion order), otherwise append. -/
def mapSet (m : List (String × String)) (k v : String) : List (String × String) :=
  if m.any (fun p => p.1 = k) then
    m.map (fun p => if p.1 = k then (k, v) else p)
  else m ++ [(k, v)]

/-- JS `Map.prototype.get`. -/
def mapGet (m : List (String × String)) (k : String) : Option String :=
  (m.find? (fun p => p.1 = k)).map (fun p => p.2)

/-! ## Data model (types.ts) -/

/-- ParamTag from types.ts. -/
structure ParamTag where
  name : String
  type : String
  description : String
deriving DecidableEq, Repr

/-- ReturnTag from types.ts. -/
structure ReturnTag where
  type : String
  description : String
deriving DecidableEq, Repr

/-- ThrowsTag from types.ts. -/
structure ThrowsTag where
  type : String
  description : String
deriving DecidableEq, Repr

/-- TagTable from types.ts.  `AccessModifier` in types.ts is a union of the
four literal strings, so it is modelled as `String` throughout. -/
structure TagTable where
  params : List ParamTag
  returns : Option ReturnTag
  throws : List ThrowsTag
  since : Option String
  author : Option String
  deprecated : Option String
  see : List String
deriving DecidableEq, Repr

/-- EMPTY_TAG_TABLE from types.ts. -/
def EMPTY_TAG_TABLE : TagTable :=
  { params := [], returns := none, throws := [], since := none,
    author := none, deprecated := none, see := [] }

/-- GitAuthorInfo from types.ts. -/
structure GitAuthorInfo where
  author : String
  lastModifier : String
  lastModifyDate : String
deriving DecidableEq, Repr

/-- MethodDoc from types.ts (the optional gitInfo field is never set by
parseMethod and is omitted). -/
structure MethodDoc where
  id : String
  name : String
  signature : String
  startLine : Nat
  endLine : Nat
  hasComment : Bool
  description : String
  tags : TagTable
  belongsTo : String
  accessModifier : String
deriving DecidableEq, Repr

/-- FieldDoc from types.ts. -/
structure FieldDoc where
  name : String
  type : String
  signature : String
  startLine : Nat
  hasComment : Bool
  description : String
  isConstant : Bool
  accessModifier : String
  belongsTo : String
deriving DecidableEq, Repr

/-! ## binarySearchMethod (utils/binarySearch.ts) -/

/-- The `while (lo <= hi)` loop of `binarySearchMethod`.  `lo`/`hi` are JS
numbers that can reach `-1`, hence `Int`; `mid = Math.floor((lo+hi)/2)` is
floor division, which for the positive divisor 2 is `Int.ediv`.  The
`method === undefined` check of the source corresponds to the `none` case of
`List.get?` and exits the loop keeping the current candidate.  The extra
`fuel` argument makes the recursion structural; each iteration shrinks the
interval `[lo, hi]`, so any fuel of at least `(hi + 1 - lo).toNat` makes the
function agree with the unbounded loop (the caller passes
`methods.length + 1`, which always suffices). -/
def bsLoop (methods : List MethodDoc) (cursorLine : Nat) :
    Nat → Int → Int → Option MethodDoc → Option MethodDoc
  | 0, _, _, result => result
  | fuel + 1, lo, hi, result =>
    if lo ≤ hi then
      let mid : Int := (lo + hi) / 2
      match methods.get? mid.toNat with
      | none => result
      | some method =>
        if method.startLine ≤ cursorLine then
          bsLoop methods cursorLine fuel (mid + 1) hi (some method)
        else
          bsLoop methods cursorLine fuel lo (mid - 1) result
    else result

/-- binarySearchMethod from utils/binarySearch.ts. -/
def binarySearchMethod (methods : List MethodDoc) (cursorLine : Nat) :
    Option MethodDoc :=
  if methods.length = 0 then none
  else
    match bsLoop methods cursorLine (methods.length + 1) 0
        ((methods.length : Int) - 1) none with
    | some result => if result.endLine ≥ cursorLine then some result else none
    | none => none

/-- A bare method span, used to build concrete inputs in witnesses and
counterexamples. -/
def mkMethodSpan (s e : Nat) (i : String) : MethodDoc :=
  { id := i, name := "m", signature := "", startLine := s, endLine := e,
    hasComment := false, description := "", tags := EMPTY_TAG_TABLE,
    belongsTo := "", accessModifier := "default" }

/-! ## Correctness of binarySearchMethod (claim C1) -/

theorem bsLoop_inv (methods : List MethodDoc) (q : Nat)
    (hsort : methods.Pairwise (fun a b => a.startLine ≤ b.startLine)) :
    ∀ (fuel : Nat) (lo hi : Int) (result : Option MethodDoc),
    0 ≤ lo → hi < (methods.length : Int) →
    (hi + 1 - lo).toNat ≤ fuel →
    (∀ (j : Nat) (hj : j < methods.length), hi < (j : Int) →
      q < (methods.get ⟨j, hj⟩).startLine) →
    ((result = none ∧ lo = 0) ∨
      (∃ (k : Nat) (hk : k < methods.length), lo = (k : Int) + 1 ∧
        result = some (methods.get ⟨k, hk⟩) ∧
        (methods.get ⟨k, hk⟩).startLine ≤ q)) →
    ((bsLoop methods q fuel lo hi result = none ∧
        ∀ (j : Nat) (hj : j < methods.length),
          q < (methods.get ⟨j, hj⟩).startLine) ∨
      (∃ (k : Nat) (hk : k < methods.length),
        bsLoop methods q fuel lo hi result = some (methods.get ⟨k, hk⟩) ∧
        (methods.get ⟨k, hk⟩).startLine ≤ q ∧
        ∀ (j : Nat) (hj : j < methods.length), (k : Int) < (j : Int) →
          q < (methods.get ⟨j, hj⟩).startLine)) := by
  intro fuel
  induction fuel with
  | zero =>
    intro lo hi result h0 hhi hsz hgt hres
    -- fuel 0 forces hi < lo, i.e. the loop is already finished
    have hterm : hi < lo := by omega
    simp only [bsLoop]
    rcases hres with ⟨hrn, hlo⟩ | ⟨k, hk, hlo, hrs, hkle⟩
    · subst hrn hlo
      exact Or.inl ⟨rfl, fun j hj => hgt j hj (by omega)⟩
    · subst hrs
      exact Or.inr ⟨k, hk, rfl, hkle, fun j hj hkj => hgt j hj (by omega)⟩
  | succ fuel ih =>
    intro lo hi result h0 hhi hsz hgt hres
    by_cases hcond : lo ≤ hi
    · have hmid_lo : lo ≤ (lo + hi) / 2 := by omega
      have hmid_hi : (lo + hi) / 2 ≤ hi := by omega
      have hmid0 : 0 ≤ (lo + hi) / 2 := le_trans h0 hmid_lo
      have hmidlt : ((lo + hi) / 2).toNat < methods.length := by omega
      have hget : methods.get? ((lo + hi) / 2).toNat =
          some (methods.get ⟨((lo + hi) / 2).toNat, hmidlt⟩) :=
        List.get?_eq_get hmidlt
      simp only [bsLoop, if_pos hcond, hget]
      set mid : Int := (lo + hi) / 2 with hmid
      set m : MethodDoc := methods.get ⟨mid.toNat, hmidlt⟩ with hm
      have hcast : (mid.toNat : Int) = mid := Int.toNat_of_nonneg hmid0
      by_cases hle : m.startLine ≤ q
      · simp only [if_pos hle]
        have ha : (0 : Int) ≤ mid + 1 := by omega
        have hb : (hi + 1 - (mid + 1)).toNat ≤ fuel := by
          clear ih hsort hgt hres hget
          omega
        have hc : mid + 1 = (mid.toNat : Int) + 1 := by rw [hcast]
        exact ih (mid + 1) hi (some m) ha hhi hb hgt
          (Or.inr ⟨mid.toNat, hmidlt, hc, rfl, hle⟩)
      · simp only [if_neg hle]
        refine ih lo (mid - 1) result h0 (by omega) (by omega) ?_ hres
        intro j hj hjgt
        by_cases hjhi : hi < (j : Int)
        · exact hgt j hj hjhi
        · -- mid - 1 < j ≤ hi: sortedness moves the bound left
          have hmj : mid.toNat ≤ j := by omega
          rcases Nat.eq_or_lt_of_le hmj with heq | hlt
          · subst heq
            have hgeq : methods.get ⟨mid.toNat, hj⟩ = m := rfl
            rw [hgeq]
            omega
          · have hp := (List.pairwise_iff_get.mp hsort)
              ⟨mid.toNat, hmidlt⟩ ⟨j, hj⟩ hlt
            have : m.startLine ≤ (methods.get ⟨j, hj⟩).startLine := hp
            omega
    · simp only [bsLoop, if_neg hcond]
      rcases hres with ⟨hrn, hlo⟩ | ⟨k, hk, hlo, hrs, hkle⟩
      · subst hrn hlo
        exact Or.inl ⟨rfl, fun j hj => hgt j hj (by omega)⟩
      · subst hrs
        exact Or.inr ⟨k, hk, rfl, hkle, fun j hj hkj => hgt j hj (by omega)⟩

/-- C1 (amended): on a list of method spans that is sorted ascending by
startLine and whose spans are pairwise disjoint, binarySearchMethod returns
the unique span containing the query line when one exists, and none when the
query line lies in a gap (in particular for the empty list). -/
theorem binarySearchMethod_correct (methods : List MethodDoc) (q : Nat)
    (hsort : methods.Pairwise (fun a b => a.startLine ≤ b.startLine))
    (hdisj : methods.Pairwise (fun a b => a.endLine < b.startLine)) :
    (∀ m ∈ methods, m.startLine ≤ q → q ≤ m.endLine →
      binarySearchMethod methods q = some m) ∧
    ((∀ m ∈ methods, ¬(m.startLine ≤ q ∧ q ≤ m.endLine)) →
      binarySearchMethod methods q = none) := by
  by_cases hlen : methods.length = 0
  · rw [List.length_eq_zero] at hlen
    subst hlen
    exact ⟨fun m hm => absurd hm (List.not_mem_nil m),
      fun _ => by simp [binarySearchMethod]⟩
  · have hcon := bsLoop_inv methods q hsort (methods.length + 1) 0
      ((methods.length : Int) - 1) none (le_refl 0) (by omega) (by omega)
      (fun j hj hgt => absurd hgt (by omega)) (Or.inl ⟨rfl, rfl⟩)
    constructor
    · intro m hm hs he
      obtain ⟨⟨i, hilen⟩, hget⟩ := List.mem_iff_get.mp hm
      rcases hcon with ⟨_, hall⟩ | ⟨k, hk, hB, hkle, hgt⟩
      · have := hall i hilen
        rw [hget] at this
        omega
      · -- the loop candidate must be exactly the containing span
        have hik : i ≤ k := by
          by_contra hik
          have := hgt i hilen (by omega)
          rw [hget] at this
          omega
      
        rcases Nat.eq_or_lt_of_le hik with heq | hlt
        · subst heq
          have hgm : methods.get ⟨i, hk⟩ = m := by
            rw [← hget]
          rw [hgm] at hB
          simp only [binarySearchMethod, if_neg hlen, hB]
          rw [if_pos (show m.endLine ≥ q from he)]
        · exfalso
          have hp := (List.pairwise_iff_get.mp hdisj) ⟨i, hilen⟩ ⟨k, hk⟩ hlt
          rw [hget] at hp
          omega
    · intro hnone
      rcases hcon with ⟨hB, _⟩ | ⟨k, hk, hB, hkle, _⟩
      · simp only [binarySearchMethod, if_neg hlen, hB]
      · have hmem : methods.get ⟨k, hk⟩ ∈ methods := List.get_mem methods k hk
        have := hnone _ hmem
        simp only [binarySearchMethod, if_neg hlen, hB]
        rw [if_neg (by omega)]

/-- C1 witness: a concrete sorted disjoint list on which the amended theorem
produces the containing span. -/
theorem binarySearchMethod_correct_witness :
    binarySearchMethod [mkMethodSpan 10 30 "a", mkMethodSpan 40 60 "b"] 20 =
      some (mkMethodSpan 10 30 "a") :=
  (binarySearchMethod_correct [mkMethodSpan 10 30 "a", mkMethodSpan 40 60 "b"]
    20 (by decide) (by decide)).1 (mkMethodSpan 10 30 "a") (by decide)
    (by decide) (by decide)

/-- C1 counterexample: with sortedness alone (no disjointness) the claim is
false.  The list [0..10], [5..6] is sorted ascending by startLine, line 8 is
contained in exactly one span ([0..10]), yet binarySearchMethod returns
none: the loop keeps the rightmost span whose start is at most 8 and its
containment check then fails. -/
theorem binarySearchMethod_sorted_only_fails :
    ([mkMethodSpan 0 10 "a", mkMethodSpan 5 6 "b"].Pairwise
      (fun a b => a.startLine ≤ b.startLine)) ∧
    (mkMethodSpan 0 10 "a") ∈ [mkMethodSpan 0 10 "a", mkMethodSpan 5 6 "b"] ∧
    (mkMethodSpan 0 10 "a").startLine ≤ 8 ∧
    8 ≤ (mkMethodSpan 0 10 "a").endLine ∧
    (∀ m ∈ [mkMethodSpan 0 10 "a", mkMethodSpan 5 6 "b"],
      m.startLine ≤ 8 → 8 ≤ m.endLine → m = mkMethodSpan 0 10 "a") ∧
    binarySearchMethod [mkMethodSpan 0 10 "a", mkMethodSpan 5 6 "b"] 8 =
      none := by
  decide

/-! ## TagParser.ts: signature helpers -/

/-- The depth-matching scans of TagParser.ts (extractParenContent,
stripLeadingAnnotation, removeMethodGenericDecl): starting from a position
holding the opening character, find the index (counted from the scan start)
of the closing character at which the depth returns to zero.  The source
loops run `depth++` on the opener and `depth--` on the closer, returning
when the depth hits zero. -/
def depthCloseIdx (openC closeC : Char) : List Char → Int → Nat → Option Nat
  | [], _, _ => none
  | c :: rest, depth, i =>
    if c = openC then depthCloseIdx openC closeC rest (depth + 1) (i + 1)
    else if c = closeC then
      if depth - 1 = 0 then some i
      else depthCloseIdx openC closeC rest (depth - 1) (i + 1)
    else depthCloseIdx openC closeC rest depth (i + 1)

/-- extractParenContent from TagParser.ts: the content of the first
top-level parenthesis pair, via depth matching; if the parenthesis never
closes (truncated signature) the remaining content is returned; empty or
whitespace-only content gives null. -/
def extractParenContent (signature : String) : Option String :=
  match signature.toList.findIdx? (fun c => c = '(') with
  | none => none
  | some openIdx =>
    match depthCloseIdx '(' ')' (signature.toList.drop openIdx) 0 0 with
    | some rel =>
      if jsTrimL ((signature.toList.drop (openIdx + 1)).take (rel - 1)) = []
      then none
      else some (jsTrimL ((signature.toList.drop (openIdx + 1)).take
        (rel - 1))).asString
    | none =>
      if jsTrimL (signature.toList.drop (openIdx + 1)) = [] then none
      else some (jsTrimL (signature.toList.drop (openIdx + 1))).asString

/-- splitByTopLevelComma from TagParser.ts: split on commas that are not
nested inside angle brackets or parentheses. -/
def splitTLC : List Char → Int → Int → List Char → List (List Char)
  | [], _, _, current =>
    if jsTrimL current.reverse = [] then [] else [current.reverse]
  | c :: rest, angleDepth, parenDepth, current =>
    if c = '<' then splitTLC rest (angleDepth + 1) parenDepth (c :: current)
    else if c = '>' then splitTLC rest (angleDepth - 1) parenDepth (c :: current)
    else if c = '(' then splitTLC rest angleDepth (parenDepth + 1) (c :: current)
    else if c = ')' then splitTLC rest angleDepth (parenDepth - 1) (c :: current)
    else if c = ',' && angleDepth = 0 && parenDepth = 0 then
      current.reverse :: splitTLC rest angleDepth parenDepth []
    else splitTLC rest angleDepth parenDepth (c :: current)

/-- splitByTopLevelComma entry point. -/
def splitByTopLevelComma (paramsStr : List Char) : List (List Char) :=
  splitTLC paramsStr 0 0 []

/-- stripLeadingAnnotation from TagParser.ts (named without the full source
name for lexical reasons): skip one leading `@Name` or `@Name(...)`
decorator and return the remaining text. -/
def stripLeadingAnno (text : List Char) : List Char :=
  let nameLen := ((text.drop 1).takeWhile (fun c => isWordChar c || c = '.')).length
  let i := 1 + nameLen
  if (text.drop i).head? = some '(' then
    match depthCloseIdx '(' ')' (text.drop i) 0 0 with
    | some rel => text.drop (i + rel + 1)
    | none => []
  else text.drop i

/-- stripAnnotationsAndModifiers from TagParser.ts, with a structural fuel
argument (every loop iteration strictly shrinks the text, so any fuel above
the text length makes the function agree with the source loop).  The loop
peels leading decorators and the modifier keyword list (just "final"),
returning the remaining "Type name" text. -/
def stripAnnosAndModifiersF : Nat → List Char → List Char
  | 0, remaining => remaining
  | fuel + 1, remaining =>
    if remaining = [] then remaining
    else
      let trimmed := jsTrimStartL remaining
      if trimmed.head? = some '@' then
        stripAnnosAndModifiersF fuel (stripLeadingAnno trimmed)
      else if startsWithL "final".toList trimmed &&
          (trimmed.length = 5 || isJsWs (trimmed.getD 5 'A')) then
        stripAnnosAndModifiersF fuel (trimmed.drop 5)
      else trimmed

/-- stripAnnotationsAndModifiers entry point. -/
def stripAnnosAndModifiers (paramDecl : List Char) : List Char :=
  stripAnnosAndModifiersF (paramDecl.length + 1) paramDecl

/-- JS `cs.lastIndexOf(" ")`. -/
def lastSpaceIdx (cs : List Char) : Option Nat :=
  match cs.reverse.findIdx? (fun c => c = ' ') with
  | none => none
  | some r => some (cs.length - 1 - r)

/-- parseSignatureParams from TagParser.ts: the parameter-name to
parameter-type map recovered from the signature text. -/
def parseSignatureParams (signature : String) : List (String × String) :=
  match extractParenContent signature with
  | none => []
  | some paramsStr =>
    (splitByTopLevelComma paramsStr.toList).foldl
      (fun map param =>
        let trimmed := jsTrimL param
        if trimmed = [] then map
        else
          let cleaned := stripAnnosAndModifiers trimmed
          match lastSpaceIdx cleaned with
          | none => map
          | some ls =>
            let ty := jsTrimL (cleaned.take ls)
            let nm := jsTrimL (cleaned.drop (ls + 1))
            if nm ≠ [] && ty ≠ [] then mapSet map nm.asString ty.asString
            else map)
      []

example : parseSignatureParams "public void save(@NotNull Long id, @Valid final String name)" =
    [("id", "Long"), ("name", "String")] := by decide
example : parseSignatureParams "public void process(Map<String, List<User>> data)" =
    [("data", "Map<String, List<User>>")] := by decide
example : extractParenContent "public void save(Map<K, V> m, int n)" = some "Map<K, V> m, int n" := by decide
example : extractParenContent "no parens here" = none := by decide
example : splitByTopLevelComma ("Map<String, Integer> map, int count".toList) =
    ["Map<String, Integer> map".toList, " int count".toList] := by decide

/-! ## TagParser.ts: the tag pattern split -/

/-- The recognized tag keywords, in the alternation order of the source
regex `@(param|return|returns|throws|exception|since|author|deprecated|see)\s+`. -/
def tagKeywords : List String :=
  ["param", "return", "returns", "throws", "exception", "since", "author",
   "deprecated", "see"]

/-- Try the keyword alternatives in order at the current position (just
after a literal `@`); the alternative succeeds when it is a literal prefix
followed by at least one whitespace character (the `\s+` of the pattern,
greedy).  Returns the keyword and the number of characters the whole
alternative-plus-whitespace consumed. -/
def tryKw : List String → List Char → Option (String × Nat)
  | [], _ => none
  | kw :: rest, cs =>
    if startsWithL kw.toList cs then
      let wsRun := ((cs.drop kw.length).takeWhile isJsWs).length
      if 0 < wsRun then some (kw, kw.length + wsRun) else tryKw rest cs
    else tryKw rest cs

/-- A match of the tag pattern at the current position: a literal `@`, one
keyword alternative, and its trailing whitespace.  Returns the captured
keyword and the total matched length. -/
def tryMatchTagAt : List Char → Option (String × Nat)
  | '@' :: cs => (tryKw tagKeywords cs).map (fun p => (p.1, 1 + p.2))
  | _ => none

/-- JS `rawTags.split(tagPattern)` where the pattern has one capture group:
the pieces between matches are interleaved with the captured keywords.  The
fuel argument makes the recursion structural; every match consumes at least
one character, so fuel equal to the text length is always enough. -/
def splitTagsF : Nat → List Char → List Char → List String
  | _, acc, [] => [acc.reverse.asString]
  | 0, acc, cs => [(acc.reverse ++ cs).asString]
  | fuel + 1, acc, c :: rest =>
    match tryMatchTagAt (c :: rest) with
    | some (kw, n) =>
      acc.reverse.asString :: kw :: splitTagsF fuel [] ((c :: rest).drop n)
    | none => splitTagsF fuel (c :: acc) rest

/-- JS `rawTags.split(tagPattern)`. -/
def splitByTagPattern (s : String) : List String :=
  splitTagsF s.toList.length [] s.toList

/-- The `for (let i = 1; i < segments.length; i += 2)` traversal of the
split result (applied to the list with the leading piece dropped):
`segments[i]` is the tag name and `segments[i+1]?.trim() ?? ""` its
content. -/
def tagPairs : List String → List (String × String)
  | [] => []
  | [t] => [(t, "")]
  | t :: c :: rest => (t, jsTrim c) :: tagPairs rest

example : splitByTagPattern "desc @param id the id @return the user" =
    ["desc ", "param", "id the id ", "return", "the user"] := by decide
example : splitByTagPattern "@returns x" = ["", "returns", "x"] := by decide
example : splitByTagPattern "no tags" = ["no tags"] := by decide
example : splitByTagPattern "@param " = ["", "param", ""] := by decide

/-! ## TagParser.ts: tag content parsing -/

/-- parseParamTag from TagParser.ts: the regex `^(\w+)\s*(.*)$` (dotall)
splits the content into its leading word-character run (the parameter name,
group 1) and the text after the following whitespace run (group 2); the type
comes from the signature map with the "unknown" sentinel on a missed
lookup.  No leading word character means no match, hence null. -/
def parseParamTag (content : String) (paramTypes : List (String × String)) :
    Option ParamTag :=
  if content.toList.takeWhile isWordChar = [] then none
  else
    some { name := (content.toList.takeWhile isWordChar).asString,
           type := (mapGet paramTypes
             (content.toList.takeWhile isWordChar).asString).getD "unknown",
           description := (jsTrimL ((content.toList.drop
             (content.toList.takeWhile isWordChar).length).dropWhile
               isJsWs)).asString }

/-- parseThrowsTag from TagParser.ts: the regex `^([\w.]+)\s*(.*)$`
(dotall), so the exception type may be a dotted name. -/
def parseThrowsTag (content : String) : Option ThrowsTag :=
  let cs := content.toList
  let tChars := cs.takeWhile (fun c => isWordChar c || c = '.')
  if tChars = [] then none
  else
    let group2 := (cs.drop tChars.length).dropWhile isJsWs
    some { type := tChars.asString,
           description := (jsTrimL group2).asString }

/-! ## TagParser.ts: return type recovery -/

/-- The JS line-terminator set (what the regex `.` does not match). -/
def isLineTerm (c : Char) : Bool :=
  c = '\n' || c = '\r' || c.val = 0x2028 || c.val = 0x2029

/-- JS `signature.replace(/\{.*$/, "")`: delete from the first `{` whose
remaining text contains no line terminator (so that `.*$` can reach the end
of the input) to the end; if no `{` qualifies the text is unchanged. -/
def removeBraceTail : List Char → List Char
  | [] => []
  | c :: rest =>
    if c = '{' && rest.all (fun d => !isLineTerm d) then []
    else c :: removeBraceTail rest

/-- The test `/^\w+\s+\w+\s*\(/` of removeMethodGenericDecl ("looks like
'Type name('"): each quantifier is greedy and the adjacent character
classes are disjoint, so the match is computed without backtracking. -/
def testWordWsWordParen (cs : List Char) : Bool :=
  let w1 := (cs.takeWhile isWordChar).length
  if w1 = 0 then false
  else
    let r1 := cs.drop w1
    let s1 := (r1.takeWhile isJsWs).length
    if s1 = 0 then false
    else
      let r2 := r1.drop s1
      let w2 := (r2.takeWhile isWordChar).length
      if w2 = 0 then false
      else ((r2.drop w2).dropWhile isJsWs).head? = some '('

/-- removeMethodGenericDecl from TagParser.ts: strip a method-level generic
type-parameter declaration (a depth-matched angle-bracket block occurring
before the first parenthesis and followed by "Type name("). -/
def removeMethodGenericDecl (cs : List Char) : List Char :=
  match cs.findIdx? (fun c => c = '<'), cs.findIdx? (fun c => c = '(') with
  | some openAngle, some openParen =>
    if openAngle > openParen then cs
    else
      match depthCloseIdx '<' '>' (cs.drop openAngle) 0 0 with
      | none => cs
      | some rel =>
        let afterGeneric := jsTrimStartL (cs.drop (openAngle + rel + 1))
        if testWordWsWordParen afterGeneric then cs.take openAngle ++ afterGeneric
        else cs
  | _, _ => cs

/-- The modifier-keyword alternatives of the main return-type regex, in
alternation order. -/
def modifierWords : List String :=
  ["public", "private", "protected", "static", "final", "abstract",
   "synchronized", "default", "native"]

/-- One iteration of the star `(?:public|...|native|\s)*`: no listed word is
a prefix of another and the words are disjoint from whitespace, so at most
one alternative applies at any position and the iteration is
deterministic. -/
def modStep (cs : List Char) : Option (List Char) :=
  match modifierWords.find? (fun w => startsWithL w.toList cs) with
  | some w => some (cs.drop w.length)
  | none =>
    match cs with
    | c :: rest => if isJsWs c then some rest else none
    | [] => none

/-- The backtracking choice points of the star, deepest (greediest) first:
the JS engine tries the longest iteration chain first and gives back one
iteration at a time.  Fuel is structural; every step consumes at least one
character, so fuel equal to the text length suffices. -/
def modStarSuffixesF : Nat → List Char → List (List Char)
  | 0, cs => [cs]
  | fuel + 1, cs =>
    match modStep cs with
    | some cs2 => modStarSuffixesF fuel cs2 ++ [cs]
    | none => [cs]

/-- The backtracking choice points of a greedy `\s*`, longest first. -/
def wsStarSuffixes (cs : List Char) : List (List Char) :=
  let k := (cs.takeWhile isJsWs).length
  (List.range (k + 1)).map (fun j => cs.drop (k - j))

/-- The character class `[\w<>\[\],\s?]` of the main regex capture group. -/
def clsChar (c : Char) : Bool :=
  isWordChar c || c = '<' || c = '>' || c = '[' || c = ']' || c = ',' ||
  isJsWs c || c = '?'

/-- The deterministic tail `\s+\w+\s*\(` shared by both return-type
regexes: adjacent classes are disjoint so greedy matching needs no
backtracking. -/
def tailMatch (cs : List Char) : Bool :=
  let ws := (cs.takeWhile isJsWs).length
  if ws = 0 then false
  else
    let r1 := cs.drop ws
    let w := (r1.takeWhile isWordChar).length
    if w = 0 then false
    else ((r1.drop w).dropWhile isJsWs).head? = some '('

/-- The lazy capture group `([\w<>\[\],\s?]+?)` followed by the tail: try
capture lengths from 1 upward, the first that lets the tail match wins. -/
def tryCaptureLazy (b : List Char) : Option (List Char) :=
  let maxRun := (b.takeWhile clsChar).length
  (List.range maxRun).findSome? (fun g0 =>
    let g := g0 + 1
    if tailMatch (b.drop g) then some (b.take g) else none)

/-- One match attempt of the main return-type regex at a fixed start
position: enumerate the backtracking choice points of the leading star and
of the following greedy whitespace run in engine preference order, then the
lazy capture. -/
def matchMainAt (s : List Char) : Option (List Char) :=
  (modStarSuffixesF s.length s).findSome? (fun a =>
    (wsStarSuffixes a).findSome? (fun b => tryCaptureLazy b))

/-- JS `exec` of the main return-type regex: try match positions left to
right and return the first capture. -/
def execMain : List Char → Option (List Char)
  | [] => matchMainAt []
  | c :: rest =>
    match matchMainAt (c :: rest) with
    | some cap => some cap
    | none => execMain rest

/-- The character class `[\w<>\[\]]` of the fallback regex. -/
def fbClsChar (c : Char) : Bool :=
  isWordChar c || c = '<' || c = '>' || c = '[' || c = ']'

/-- The greedy capture group `([\w<>\[\]]+)` followed by the tail: try
capture lengths from the maximal run downward. -/
def tryCaptureGreedy (b : List Char) : Option (List Char) :=
  let maxRun := (b.takeWhile fbClsChar).length
  (List.range maxRun).findSome? (fun i =>
    let g := maxRun - i
    if tailMatch (b.drop g) then some (b.take g) else none)

/-- JS `exec` of the fallback regex `([\w<>\[\]]+)\s+\w+\s*\(`. -/
def execFallback : List Char → Option (List Char)
  | [] => tryCaptureGreedy []
  | c :: rest =>
    match tryCaptureGreedy (c :: rest) with
    | some cap => some cap
    | none => execFallback rest

/-- The fallback branch of parseReturnType: the last type-like token before
the name and parenthesis, with the "void" sentinel when nothing matches
(a matched capture is returned trimmed even if the trim empties it, since
only null/undefined trigger the `?? "void"` default). -/
def fallbackReturn (wo : List Char) : String :=
  match execFallback wo with
  | some cap => (jsTrimL cap).asString
  | none => "void"

/-- parseReturnType from TagParser.ts: remove a same-line method body,
strip a method-level generic declaration, then run the two regexes in
order.  The main capture is used only when non-empty (`if (match?.[1])`). -/
def parseReturnType (signature : String) : String :=
  let cleanSig := jsTrimL (removeBraceTail signature.toList)
  let wo := removeMethodGenericDecl cleanSig
  match execMain wo with
  | some cap => if cap ≠ [] then (jsTrimL cap).asString else fallbackReturn wo
  | none => fallbackReturn wo

example : parseReturnType "public User findById(Long id)" = "User" := by decide
example : parseReturnType "public List<User> findAll()" = "List<User>" := by decide
example : parseReturnType "public void save(User user)" = "void" := by decide
example : parseReturnType "public <T> T convert(Object o)" = "T" := by decide
example : parseReturnType "void f(int a)" = "void" := by decide

/-! ## TagParser.ts: parseTagTable -/

/-- One iteration of the switch in parseTagTable: fold a (tag, content)
pair into the accumulated table. -/
def applyTag (paramTypes : List (String × String)) (returnType : String)
    (acc : TagTable) (tag : String × String) : TagTable :=
  if tag.1 = "param" then
    match parseParamTag tag.2 paramTypes with
    | some p => { acc with params := acc.params ++ [p] }
    | none => acc
  else if tag.1 = "return" || tag.1 = "returns" then
    if returnType ≠ "void" then
      { acc with returns := some { type := returnType, description := tag.2 } }
    else acc
  else if tag.1 = "throws" || tag.1 = "exception" then
    match parseThrowsTag tag.2 with
    | some t => { acc with throws := acc.throws ++ [t] }
    | none => acc
  else if tag.1 = "since" then { acc with since := some tag.2 }
  else if tag.1 = "author" then { acc with author := some tag.2 }
  else if tag.1 = "deprecated" then { acc with deprecated := some tag.2 }
  else if tag.1 = "see" then { acc with see := acc.see ++ [tag.2] }
  else acc

/-- parseTagTable from TagParser.ts. -/
def parseTagTable (rawTags signature : String) : TagTable :=
  if jsTrim rawTags = "" then EMPTY_TAG_TABLE
  else
    let paramTypes := parseSignatureParams signature
    let returnType := parseReturnType signature
    let pairs := tagPairs ((splitByTagPattern rawTags).drop 1)
    pairs.foldl (applyTag paramTypes returnType) EMPTY_TAG_TABLE

example : parseTagTable "@param id user id\n@return the user"
    "public User findById(Long id)" =
    { params := [{ name := "id", type := "Long", description := "user id" }],
      returns := some { type := "User", description := "the user" },
      throws := [], since := none, author := none, deprecated := none,
      see := [] } := by decide
example : parseTagTable "@param filters criteria\n@param strict exact match\n@return matches"
    "public List<User> findAll(Map<String,Integer> filters, boolean strict)" =
    { params := [{ name := "filters", type := "Map<String,Integer>", description := "criteria" },
                 { name := "strict", type := "boolean", description := "exact match" }],
      returns := some { type := "List<User>", description := "matches" },
      throws := [], since := none, author := none, deprecated := none,
      see := [] } := by decide
example : parseTagTable "@return something" "public void save(User user)" =
    EMPTY_TAG_TABLE := by decide
example : parseTagTable "@throws java.lang.IllegalStateException bad state" "void f()" =
    { params := [], returns := none,
      throws := [{ type := "java.lang.IllegalStateException", description := "bad state" }],
      since := none, author := none, deprecated := none, see := [] } := by decide

/-! ## Claims C2, C7, C10 -/

theorem applyTag_void_returns (pt : List (String × String)) (acc : TagTable)
    (tag : String × String) :
    (applyTag pt "void" acc tag).returns = acc.returns := by
  unfold applyTag
  split_ifs <;>
    first
    | rfl
    | (cases hp : parseParamTag tag.2 pt <;> rfl)
    | (cases hp : parseThrowsTag tag.2 <;> rfl)
    | simp_all

theorem foldl_applyTag_void (pt : List (String × String))
    (pairs : List (String × String)) (acc : TagTable) :
    (pairs.foldl (applyTag pt "void") acc).returns = acc.returns := by
  induction pairs generalizing acc with
  | nil => rfl
  | cons p rest ih => rw [List.foldl_cons, ih, applyTag_void_returns]

/-- C2: whenever the recovered return type is the "void" sentinel,
parseTagTable never emits a ReturnTag, regardless of the raw tag text (in
particular even when an @return or @returns tag is present). -/
theorem parseTagTable_void_suppression (rawTags signature : String)
    (hvoid : parseReturnType signature = "void") :
    (parseTagTable rawTags signature).returns = none := by
  unfold parseTagTable
  split
  · rfl
  · simp only [hvoid]
    rw [foldl_applyTag_void]
    rfl

/-- C2 witness: a void signature with an explicit @return tag yields a
table with no ReturnTag. -/
theorem parseTagTable_void_suppression_witness :
    (parseTagTable "@return matches" "public void save(User user)").returns =
      none :=
  parseTagTable_void_suppression "@return matches" "public void save(User user)"
    (by decide)

/-- C7: parseParamTag is total and never fails: it returns null exactly
when the content has no leading word character; otherwise the tag's name is
the leading word-character run, its description is the remainder after the
following whitespace (trimmed), and its type is the signature-map entry for
the name, with the "unknown" sentinel whenever the lookup misses. -/
theorem parseParamTag_spec (content signature : String) :
    (parseParamTag content (parseSignatureParams signature) = none ↔
      content.toList.takeWhile isWordChar = []) ∧
    (∀ t, parseParamTag content (parseSignatureParams signature) = some t →
      t.name = (content.toList.takeWhile isWordChar).asString ∧
      t.description = (jsTrimL ((content.toList.drop
        (content.toList.takeWhile isWordChar).length).dropWhile isJsWs)).asString ∧
      (mapGet (parseSignatureParams signature) t.name = none →
        t.type = "unknown") ∧
      (∀ ty, mapGet (parseSignatureParams signature) t.name = some ty →
        t.type = ty)) := by
  by_cases h : content.toList.takeWhile isWordChar = []
  · have hnone : parseParamTag content (parseSignatureParams signature) = none := by
      unfold parseParamTag
      rw [if_pos h]
    constructor
    · exact ⟨fun _ => h, fun _ => hnone⟩
    · intro t ht
      rw [hnone] at ht
      cases ht
  · have hsome : parseParamTag content (parseSignatureParams signature) =
        some { name := (content.toList.takeWhile isWordChar).asString,
               type := (mapGet (parseSignatureParams signature)
                 (content.toList.takeWhile isWordChar).asString).getD "unknown",
               description := (jsTrimL ((content.toList.drop
                 (content.toList.takeWhile isWordChar).length).dropWhile
                   isJsWs)).asString } := by
      unfold parseParamTag
      rw [if_neg h]
    constructor
    · constructor
      · intro hx
        rw [hsome] at hx
        cases hx
      · intro hx
        exact absurd hx h
    · intro t ht
      rw [hsome] at ht
      obtain rfl := Option.some_injective _ ht.symm
      refine ⟨rfl, rfl, ?_, ?_⟩
      · intro hmiss
        have hmiss2 : mapGet (parseSignatureParams signature)
            ((content.toList.takeWhile isWordChar).asString) = none := hmiss
        show (mapGet (parseSignatureParams signature)
          ((content.toList.takeWhile isWordChar).asString)).getD "unknown" =
            "unknown"
        rw [hmiss2]
        rfl
      · intro ty hty
        have hty2 : mapGet (parseSignatureParams signature)
            ((content.toList.takeWhile isWordChar).asString) = some ty := hty
        show (mapGet (parseSignatureParams signature)
          ((content.toList.takeWhile isWordChar).asString)).getD "unknown" = ty
        rw [hty2]
        rfl

/-- C7 witness: a parameter name absent from the signature map gets the
"unknown" sentinel type rather than an error. -/
theorem parseParamTag_spec_witness :
    (parseParamTag "other hello" (parseSignatureParams "void f(Long id)")).map
      (fun t => t.type) = some "unknown" := by
  have hsome : parseParamTag "other hello" (parseSignatureParams "void f(Long id)") =
      some { name := "other", type := "unknown", description := "hello" } := by
    decide
  have h := ((parseParamTag_spec "other hello" "void f(Long id)").2 _ hsome).2.2.1
    (by decide)
  rw [hsome]
  exact congrArg some h

theorem depthCloseIdx_none (cs : List Char) (d : Int) (i : Nat)
    (h : ∀ j, j < cs.length → cs.get? j = some ')' →
      d + ((cs.take (j + 1)).count '(' : Int) -
        ((cs.take (j + 1)).count ')' : Int) ≠ 0) :
    depthCloseIdx '(' ')' cs d i = none := by
  induction cs generalizing d i with
  | nil => rfl
  | cons c rest ih =>
    by_cases hc : c = '('
    · subst hc
      simp only [depthCloseIdx, if_pos rfl]
      apply ih
      intro j hj hget
      have hh := h (j + 1) (by simpa using Nat.succ_lt_succ hj)
        (by simpa using hget)
      simp [List.take_succ_cons, List.count_cons] at hh ⊢
      omega
    · by_cases hc2 : c = ')'
      · subst hc2
        have h0 := h 0 (by simp) (by simp)
        simp [List.take_succ_cons, List.count_cons] at h0
        have hd : ¬(d - 1 = 0) := by omega
        simp only [depthCloseIdx, if_neg hc, if_pos rfl, if_neg hd]
        apply ih
        intro j hj hget
        have hh := h (j + 1) (by simpa using Nat.succ_lt_succ hj)
          (by simpa using hget)
        simp [List.take_succ_cons, List.count_cons] at hh ⊢
        omega
      · simp only [depthCloseIdx, if_neg hc, if_neg hc2]
        apply ih
        intro j hj hget
        have hh := h (j + 1) (by simpa using Nat.succ_lt_succ hj)
          (by simpa using hget)
        simp [List.take_succ_cons, List.count_cons, hc, hc2] at hh ⊢
        omega

/-- C10: on a signature whose first opening parenthesis is never matched by
a closing one (for example a signature truncated by the bounded multi-line
scan), extractParenContent does not fail: it returns the trimmed text
following the first opening parenthesis, null only when that remainder is
whitespace-empty, so parameter-type recovery still proceeds. -/
theorem extractParenContent_unclosed (signature : String) (i : Nat)
    (hopen : signature.toList.findIdx? (fun c => c = '(') = some i)
    (hnoclose : ∀ j, j < (signature.toList.drop i).length →
      (signature.toList.drop i).get? j = some ')' →
      ((signature.toList.drop i).take (j + 1)).count '(' ≠
        ((signature.toList.drop i).take (j + 1)).count ')') :
    extractParenContent signature =
      (if jsTrimL (signature.toList.drop (i + 1)) = [] then none
       else some (jsTrimL (signature.toList.drop (i + 1))).asString) := by
  have hd : depthCloseIdx '(' ')' (signature.toList.drop i) 0 0 = none := by
    apply depthCloseIdx_none
    intro j hj hget
    have := hnoclose j hj hget
    omega
  simp only [extractParenContent, hopen, hd]

/-- C10 witness: a truncated signature still yields its parameter text. -/
theorem extractParenContent_unclosed_witness :
    extractParenContent "void f(int a" = some "int a" := by
  have h := extractParenContent_unclosed "void f(int a" 6 (by decide)
    (by decide)
  rw [h]
  decide

/-! ## JavaDocParser.ts: comment extraction -/

/-- JS `text.split("\\n")` on the character list: pieces between newline
characters, keeping leading/trailing empty pieces. -/
def splitNlChars : List Char → List Char → List String
  | [], acc => [acc.reverse.asString]
  | c :: rest, acc =>
    if c = '\n' then acc.reverse.asString :: splitNlChars rest []
    else splitNlChars rest (c :: acc)

/-- JS `text.split("\\n")`. -/
def jsSplitNl (s : String) : List String := splitNlChars s.toList []

/-- Number of occurrences of a character in a string
(JS `line.match(/\(/g)?.length ?? 0`). -/
def countChar (c : Char) (s : String) : Nat := s.toList.count c

/-- The test of the annotationPattern regex of JavaDocParser.ts,
`^\s*@[\w.]+` (the name avoids the source spelling for lexical reasons). -/
def annoTest (line : String) : Bool :=
  match line.toList.dropWhile isJsWs with
  | '@' :: rest => !(rest.takeWhile (fun c => isWordChar c || c = '.')).isEmpty
  | _ => false

/-- The inner while of onlyBlankOrAnnotations: consume lines while the
decorator's parenthesis depth stays positive. -/
def skipAnnoParens : List String → Int → List String
  | [], _ => []
  | l :: rest, depth =>
    if depth > 0 then
      skipAnnoParens rest (depth + (countChar '(' l : Int) - (countChar ')' l : Int))
    else l :: rest

/-- onlyBlankOrAnnotations from JavaDocParser.ts (the name avoids the
source spelling for lexical reasons), with a structural fuel argument:
every outer iteration consumes at least one line, so fuel equal to the
number of lines always suffices (the entry point passes exactly that). -/
def onlyBlankOrAnnosF : Nat → List String → Bool
  | _, [] => true
  | 0, _ :: _ => true
  | fuel + 1, l :: rest =>
    if jsTrim l = "" then onlyBlankOrAnnosF fuel rest
    else if !annoTest (jsTrim l) then false
    else onlyBlankOrAnnosF fuel
      (skipAnnoParens rest ((countChar '(' l : Int) - (countChar ')' l : Int)))

/-- onlyBlankOrAnnotations entry point. -/
def onlyBlankOrAnnos (lines : List String) : Bool :=
  onlyBlankOrAnnosF lines.length lines

/-- The inner upward search of extractComment: from endLine going up, the
first line containing the block opener; a second independent closer stops
the search (the loop break), as does falling below line zero. -/
def findCommentStart (lines : List String) (endLine : Nat) : Nat → Option Nat
  | 0 =>
    if jsIncludes "/**".toList (lines.getD 0 "").toList then some 0 else none
  | s + 1 =>
    if jsIncludes "/**".toList (lines.getD (s + 1) "").toList then some (s + 1)
    else if s + 1 ≠ endLine &&
        jsIncludes "*/".toList (lines.getD (s + 1) "").toList then none
    else findCommentStart lines endLine s

/-- One iteration of the outer loop of extractComment, for a fixed
candidate endLine: the line must be non-blank, end with the block closer,
be separated from the target only by blanks or decorators, and have a
matching opener above it. -/
def ecTry (lines : List String) (targetLine e : Nat) : Option String :=
  if jsTrim (lines.getD e "") = "" then none
  else if !jsEndsWith "*/".toList (jsTrim (lines.getD e "")).toList then none
  else if !onlyBlankOrAnnos ((lines.drop (e + 1)).take (targetLine - (e + 1)))
  then none
  else
    match findCommentStart lines e e with
    | some s => some (String.intercalate "\n" ((lines.drop s).take (e + 1 - s)))
    | none => none

/-- The outer loop of extractComment: try endLine = targetLine-1 down to 0,
returning the first successful extraction. -/
def ecScan (lines : List String) (targetLine : Nat) : Nat → String
  | 0 => (ecTry lines targetLine 0).getD ""
  | e + 1 =>
    match ecTry lines targetLine (e + 1) with
    | some s => s
    | none => ecScan lines targetLine e

/-- extractComment from JavaDocParser.ts. -/
def extractComment (text : String) (targetLine : Nat) : String :=
  if targetLine = 0 then ""
  else ecScan (jsSplitNl text) targetLine (targetLine - 1)

example : extractComment "/** C1 */\nclass A \x7b\n  int x;\n\x7d" 1 = "/** C1 */" := by
  decide
example : extractComment "/**\n * doc\n */\n@Override\npublic void f() {}" 4 =
    "/**\n * doc\n */" := by decide
example : extractComment "\x7d\npublic void f() \x7b\x7d" 1 = "" := by decide
example : extractComment "/** a */\nint x;\npublic void f() {}" 2 = "" := by
  decide

/-! ## Claim C3: member-level comment disambiguation -/

/-- Modelled from the spec: the member-level comment extraction with the
container-comment disambiguation (extractMemberComment).  Its implementation
is missing from the snapshot: only its declaration and documentation appear
in out/parser/JavaDocParser.d.ts, which states that it runs extractComment
and then discards the result when it is identical to the class comment.
Spec 4.2: a member-level call "additionally compares the extracted text
against the already-resolved container-level comment; if they are
byte-identical, the association is discarded (empty result)". -/
def extractMemberComment (text : String) (targetLine : Nat)
    (classComment : String) : String :=
  if extractComment text targetLine = classComment then ""
  else extractComment text targetLine

/-- Modelled from the spec: the hasComment flag a member-level parse derives
from the extraction result (`rawComment.length > 0` in parseMethod and
parseField). -/
def memberHasComment (text : String) (targetLine : Nat)
    (classComment : String) : Bool :=
  (extractMemberComment text targetLine classComment).length > 0

/-- C3: whenever the comment text extracted for a member is byte-identical
to the already-resolved container-level comment, the association is
discarded: the member's comment is empty and its hasComment flag is false;
the comparison is applied on every member-level extraction. -/
theorem extractMemberComment_discards (text : String) (targetLine : Nat)
    (classComment : String)
    (hsame : extractComment text targetLine = classComment) :
    extractMemberComment text targetLine classComment = "" ∧
    memberHasComment text targetLine classComment = false := by
  have h1 : extractMemberComment text targetLine classComment = "" := by
    unfold extractMemberComment
    rw [if_pos hsame]
  refine ⟨h1, ?_⟩
  unfold memberHasComment
  rw [h1]
  rfl

/-- C3 witness: the spec's disassociation scenario, with the class comment
at the line directly above the member position reported by the language
server; the extracted member comment coincides with the class comment and
is discarded. -/
theorem extractMemberComment_discards_witness :
    extractMemberComment "/** C1 */\nclass A \x7b\n  int x;\n\x7d" 1 "/** C1 */" =
      "" ∧
    memberHasComment "/** C1 */\nclass A \x7b\n  int x;\n\x7d" 1 "/** C1 */" =
      false :=
  extractMemberComment_discards "/** C1 */\nclass A \x7b\n  int x;\n\x7d" 1
    "/** C1 */" (by decide)

/-! ## JavaDocParser.ts: extractFullSignature -/

/-- Result of scanning one line's characters inside extractFullSignature:
either the signature is complete (the early return) or the line is
exhausted with the state carried to the next line. -/
inductive EfsRes where
  | done (s : List Char)
  | cont (s : List Char) (depth : Int) (found : Bool)
deriving DecidableEq, Repr

/-- The per-character loop of extractFullSignature: every character is
accumulated; parentheses move the depth; the early return fires on a
closing parenthesis that brings the depth to zero after an opening
parenthesis has been seen. -/
def efsChars : List Char → List Char → Int → Bool → EfsRes
  | [], sig, depth, found => .cont sig depth found
  | c :: rest, sig, depth, found =>
    if c = '(' then efsChars rest (sig ++ [c]) (depth + 1) true
    else if c = ')' then
      if found && depth - 1 = 0 then .done (sig ++ [c])
      else efsChars rest (sig ++ [c]) (depth - 1) found
    else efsChars rest (sig ++ [c]) depth found

/-- The per-line loop of extractFullSignature: after each line a single
space replaces the newline, and the loop stops when the lines run out or
when five lines beyond the starting line have been consumed (the safety
ceiling `lineIndex - startLine > 5`). -/
def efsLoop (startLine : Nat) : List String → Nat → List Char → Int → Bool →
    List Char
  | [], _, sig, _, _ => sig
  | line :: rest, lineIndex, sig, depth, found =>
    match efsChars line.toList sig depth found with
    | .done s => s
    | .cont s d f =>
      if lineIndex + 1 - startLine > 5 then s ++ [' ']
      else efsLoop startLine rest (lineIndex + 1) (s ++ [' ']) d f

/-- extractFullSignature from JavaDocParser.ts: both exits normalize the
accumulated text by collapsing whitespace runs. -/
def extractFullSignature (lines : List String) (startLine : Nat) : String :=
  jsNormalize (efsLoop startLine (lines.drop startLine) startLine [] 0 false)

example : extractFullSignature ["public void save(", "  User user", ") \x7b"] 0 =
    "public void save( User user )" := by decide
example : extractFullSignature ["int f(int a) \x7b"] 0 = "int f(int a)" := by decide
example : extractFullSignature ["void g(", "int a,", "int b,", "int c,",
    "int d,", "int e,", "int f) {}"] 0 =
    "void g( int a, int b, int c, int d, int e," := by decide
example : extractFullSignature ["a) (b) c"] 0 = "a) (b) c" := by decide

/-! ## Claim C6: characterisation of extractFullSignature -/

/-- The window of lines extractFullSignature can consume: the starting line
plus at most five additional lines, joined by single spaces (every newline
is replaced by one space while accumulating). -/
def joinSpace : List String → List Char
  | [] => []
  | [l] => l.toList
  | l :: l2 :: rest => l.toList ++ ' ' :: joinSpace (l2 :: rest)

/-- The character stream the scan of extractFullSignature operates on. -/
def signatureWindow (lines : List String) (startLine : Nat) : List Char :=
  joinSpace ((lines.drop startLine).take 6)

/-- The stop condition of the scan, stated by counting: position i holds a
closing parenthesis and the parenthesis depth over the preceding characters
is exactly one, i.e. the depth returns to zero at i after having been
positive (which also forces an opening parenthesis to have been seen). -/
def isStopAt (cs : List Char) (i : Nat) : Prop :=
  cs.get? i = some ')' ∧
    (cs.take i).count '(' = (cs.take i).count ')' + 1

instance (cs : List Char) (i : Nat) : Decidable (isStopAt cs i) := by
  unfold isStopAt
  infer_instance

/-- The stop condition relative to a running state: depth d and
found-opening flag f carried into the character stream. -/
def stopsAt (d : Int) (f : Bool) (cs : List Char) (i : Nat) : Prop :=
  cs.get? i = some ')' ∧ (f = true ∨ 1 ≤ (cs.take i).count '(') ∧
    d + ((cs.take i).count '(' : Int) - ((cs.take i).count ')' : Int) = 1

theorem stopsAt_zero_false (cs : List Char) (i : Nat) :
    stopsAt 0 false cs i ↔ isStopAt cs i := by
  unfold stopsAt isStopAt
  constructor
  · rintro ⟨hg, _, he⟩
    exact ⟨hg, by omega⟩
  · rintro ⟨hg, he⟩
    exact ⟨hg, Or.inr (by omega), by omega⟩

theorem stopsAt_cons_open (d : Int) (f : Bool) (rest : List Char) (j : Nat) :
    stopsAt d f ('(' :: rest) (j + 1) ↔ stopsAt (d + 1) true rest j := by
  unfold stopsAt
  simp only [List.get?_cons_succ, List.take_succ_cons, List.count_cons]
  constructor
  · rintro ⟨hg, _, he⟩
    refine ⟨hg, Or.inl (by simp), ?_⟩
    simp at he
    push_cast at he ⊢
    omega
  · rintro ⟨hg, _, he⟩
    refine ⟨hg, Or.inr ?_, ?_⟩
    · simp
    · simp
      push_cast at he ⊢
      omega

theorem stopsAt_cons_close (d : Int) (f : Bool) (rest : List Char) (j : Nat) :
    stopsAt d f (')' :: rest) (j + 1) ↔ stopsAt (d - 1) f rest j := by
  unfold stopsAt
  simp only [List.get?_cons_succ, List.take_succ_cons, List.count_cons]
  constructor
  · rintro ⟨hg, ho, he⟩
    refine ⟨hg, ?_, ?_⟩
    · simpa using ho
    · simp at he
      push_cast at he ⊢
      omega
  · rintro ⟨hg, ho, he⟩
    refine ⟨hg, ?_, ?_⟩
    · simpa using ho
    · simp
      push_cast at he ⊢
      omega

theorem stopsAt_cons_other (d : Int) (f : Bool) (c : Char) (rest : List Char)
    (j : Nat) (h1 : ¬(c = '(')) (h2 : ¬(c = ')')) :
    stopsAt d f (c :: rest) (j + 1) ↔ stopsAt d f rest j := by
  unfold stopsAt
  simp only [List.get?_cons_succ, List.take_succ_cons, List.count_cons]
  constructor
  · rintro ⟨hg, ho, he⟩
    refine ⟨hg, ?_, ?_⟩
    · simpa [h1] using ho
    · simp [h1, h2] at he
      push_cast at he ⊢
      omega
  · rintro ⟨hg, ho, he⟩
    refine ⟨hg, ?_, ?_⟩
    · simpa [h1] using ho
    · simp [h1, h2]
      push_cast at he ⊢
      omega

theorem efsChars_stop : ∀ (cs sig : List Char) (d : Int) (f : Bool) (i : Nat),
    stopsAt d f cs i → (∀ j, j < i → ¬ stopsAt d f cs j) →
    efsChars cs sig d f = .done (sig ++ cs.take (i + 1)) := by
  intro cs
  induction cs with
  | nil =>
    intro sig d f i hstop _
    rcases hstop with ⟨hget, _⟩
    simp at hget
  | cons c rest ih =>
    intro sig d f i hstop hfirst
    match i with
    | 0 =>
      obtain ⟨hget, hor, he⟩ := hstop
      simp at hget
      subst hget
      have hf : f = true := by
        rcases hor with hf | habs
        · exact hf
        · simp at habs
      have hd : d = 1 := by
        simp at he
        omega
      subst hf hd
      simp [efsChars]
    | j + 1 =>
      have hn0 := hfirst 0 (Nat.succ_pos j)
      by_cases hc : c = '('
      · subst hc
        simp only [efsChars, if_pos rfl]
        rw [ih (sig ++ ['(']) (d + 1) true j
          ((stopsAt_cons_open d f rest j).mp hstop)
          (fun j' hj' hs => hfirst (j' + 1) (Nat.succ_lt_succ hj')
            ((stopsAt_cons_open d f rest j').mpr hs))]
        simp [List.take_succ_cons]
      · by_cases hc2 : c = ')'
        · subst hc2
          have hguard : ¬(f = true ∧ d = 1) := by
            intro ⟨hf, hd⟩
            exact hn0 ⟨by simp, Or.inl hf, by simp; omega⟩
          have hguard2 : ¬(f && (d - 1 = 0 : Bool)) = true := by
            simp only [Bool.and_eq_true, decide_eq_true_eq]
            intro ⟨hf, hd⟩
            exact hguard ⟨hf, by omega⟩
          simp only [efsChars, if_neg hc, if_true]
          rw [if_neg (by simpa using hguard2)]
          rw [ih (sig ++ [')']) (d - 1) f j
            ((stopsAt_cons_close d f rest j).mp hstop)
            (fun j' hj' hs => hfirst (j' + 1) (Nat.succ_lt_succ hj')
              ((stopsAt_cons_close d f rest j').mpr hs))]
          simp [List.take_succ_cons]
        · simp only [efsChars, if_neg hc, if_neg hc2]
          rw [ih (sig ++ [c]) d f j
            ((stopsAt_cons_other d f c rest j hc hc2).mp hstop)
            (fun j' hj' hs => hfirst (j' + 1) (Nat.succ_lt_succ hj')
              ((stopsAt_cons_other d f c rest j' hc hc2).mpr hs))]
          simp [List.take_succ_cons]

theorem efsChars_nostop : ∀ (cs sig : List Char) (d : Int) (f : Bool),
    (∀ i, ¬ stopsAt d f cs i) →
    ∃ d2 f2, efsChars cs sig d f = .cont (sig ++ cs) d2 f2 := by
  intro cs
  induction cs with
  | nil =>
    intro sig d f _
    exact ⟨d, f, by simp [efsChars]⟩
  | cons c rest ih =>
    intro sig d f h
    by_cases hc : c = '('
    · subst hc
      obtain ⟨d2, f2, hrec⟩ := ih (sig ++ ['(']) (d + 1) true
        (fun i hs => h (i + 1) ((stopsAt_cons_open d f rest i).mpr hs))
      refine ⟨d2, f2, ?_⟩
      simp only [efsChars, if_pos rfl]
      rw [hrec]
      simp
    · by_cases hc2 : c = ')'
      · subst hc2
        have hn0 := h 0
        have hguard : ¬(f = true ∧ d = 1) := by
          intro ⟨hf, hd⟩
          exact hn0 ⟨by simp, Or.inl hf, by simp; omega⟩
        obtain ⟨d2, f2, hrec⟩ := ih (sig ++ [')']) (d - 1) f
          (fun i hs => h (i + 1) ((stopsAt_cons_close d f rest i).mpr hs))
        refine ⟨d2, f2, ?_⟩
        simp only [efsChars, if_neg hc, if_true]
        rw [if_neg (by
          simp only [Bool.and_eq_true, decide_eq_true_eq]
          intro ⟨hf, hd⟩
          exact hguard ⟨hf, by omega⟩)]
        rw [hrec]
        simp
      · obtain ⟨d2, f2, hrec⟩ := ih (sig ++ [c]) d f
          (fun i hs => h (i + 1) ((stopsAt_cons_other d f c rest i hc hc2).mpr hs))
        refine ⟨d2, f2, ?_⟩
        simp only [efsChars, if_neg hc, if_neg hc2]
        rw [hrec]
        simp

theorem efsChars_append : ∀ (l1 l2 sig : List Char) (d : Int) (f : Bool),
    efsChars (l1 ++ l2) sig d f =
      (match efsChars l1 sig d f with
       | .done s => .done s
       | .cont s d2 f2 => efsChars l2 s d2 f2) := by
  intro l1
  induction l1 with
  | nil => intro l2 sig d f; rfl
  | cons c rest ih =>
    intro l2 sig d f
    by_cases hc : c = '('
    · subst hc
      simp only [List.cons_append, efsChars, if_true]
      exact ih l2 (sig ++ ['(']) (d + 1) true
    · by_cases hc2 : c = ')'
      · subst hc2
        simp only [List.cons_append, efsChars, if_neg hc, if_true]
        by_cases hg : (f && (d - 1 = 0 : Bool)) = true
        · rw [if_pos hg, if_pos hg]
        · rw [if_neg hg, if_neg hg]
          exact ih l2 (sig ++ [')']) (d - 1) f
      · simp only [List.cons_append, efsChars, if_neg hc, if_neg hc2]
        exact ih l2 (sig ++ [c]) d f

/-- The character stream actually scanned by efsLoop: each consumed line is
followed by the space that replaces its newline. -/
def joinTrail (ls : List String) : List Char :=
  (ls.map (fun l => l.toList ++ [' '])).join

theorem joinTrail_eq_joinSpace : ∀ (ls : List String), ls ≠ [] →
    joinTrail ls = joinSpace ls ++ [' '] := by
  intro ls
  induction ls with
  | nil => intro h; exact absurd rfl h
  | cons l rest ih =>
    intro _
    match rest with
    | [] => simp [joinTrail, joinSpace]
    | r :: rest2 =>
      have := ih (by simp)
      simp only [joinTrail, List.map_cons, List.join_cons] at this ⊢
      rw [this]
      simp [joinSpace]

theorem efsLoop_eq_efsChars (startLine : Nat) :
    ∀ (rem : List String) (lineIndex : Nat) (sig : List Char) (d : Int)
    (f : Bool), startLine ≤ lineIndex → lineIndex - startLine ≤ 5 →
    efsLoop startLine rem lineIndex sig d f =
      (match efsChars (joinTrail (rem.take (6 - (lineIndex - startLine))))
          sig d f with
       | .done s => s
       | .cont s _ _ => s) := by
  intro rem
  induction rem with
  | nil =>
    intro lineIndex sig d f h1 h2
    simp [efsLoop, joinTrail, efsChars]
  | cons line rest ih =>
    intro lineIndex sig d f h1 h2
    have ha : 6 - (lineIndex - startLine) = (5 - (lineIndex - startLine)) + 1 := by
      omega
    rw [ha, List.take_succ_cons]
    have hjoin : joinTrail (line :: rest.take (5 - (lineIndex - startLine))) =
        line.toList ++ (' ' :: joinTrail (rest.take (5 - (lineIndex - startLine)))) := by
      simp [joinTrail]
    rw [hjoin, efsChars_append]
    simp only [efsLoop]
    cases hres : efsChars line.toList sig d f with
    | done s => rfl
    | cont s d2 f2 =>
      dsimp only
      by_cases hceil : lineIndex + 1 - startLine > 5
      · rw [if_pos hceil]
        have h50 : 5 - (lineIndex - startLine) = 0 := by omega
        rw [h50]
        simp [joinTrail, efsChars, isJsWs]
      · rw [if_neg hceil]
        rw [ih (lineIndex + 1) (s ++ [' ']) d2 f2 (by omega) (by omega)]
        have hb : 6 - (lineIndex + 1 - startLine) = 5 - (lineIndex - startLine) := by
          omega
        rw [hb]
        have hsp : efsChars (' ' :: joinTrail (rest.take (5 - (lineIndex - startLine))))
            s d2 f2 =
            efsChars (joinTrail (rest.take (5 - (lineIndex - startLine))))
              (s ++ [' ']) d2 f2 := by
          simp [efsChars, isJsWs]
        rw [hsp]

theorem collapseWsF_append_ws (x : List Char) : ∀ (b : Bool),
    collapseWsF b (x ++ [' ']) = collapseWsF b x ∨
    collapseWsF b (x ++ [' ']) = collapseWsF b x ++ [' '] := by
  induction x with
  | nil =>
    intro b
    cases b
    · right
      simp [collapseWsF, isJsWs]
    · left
      simp [collapseWsF, isJsWs]
  | cons c rest ih =>
    intro b
    simp only [List.cons_append, collapseWsF, List.append_eq]
    by_cases hc : isJsWs c
    · rw [if_pos hc, if_pos hc]
      cases b
      · simp only [Bool.false_eq_true, if_false]
        rcases ih true with h | h
        · left; rw [h]
        · right; rw [h]; rfl
      · simp only [if_true]
        rcases ih true with h | h
        · left; rw [h]
        · right; rw [h]
    · rw [if_neg hc, if_neg hc]
      rcases ih false with h | h
      · left; rw [h]
      · right; rw [h]; rfl

theorem jsTrimL_append_ws (y : List Char) : jsTrimL (y ++ [' ']) = jsTrimL y := by
  induction y with
  | nil => decide
  | cons c rest ih =>
    by_cases hc : isJsWs c
    · have e1 : jsTrimL ((c :: rest) ++ [' ']) = jsTrimL (rest ++ [' ']) := by
        simp [jsTrimL, List.dropWhile_cons, hc]
      have e2 : jsTrimL (c :: rest) = jsTrimL rest := by
        simp [jsTrimL, List.dropWhile_cons, hc]
      rw [e1, e2, ih]
    · have e1 : jsTrimL ((c :: rest) ++ [' ']) =
          (List.dropWhile isJsWs (List.reverse rest ++ [c])).reverse := by
        simp only [jsTrimL, List.cons_append, List.dropWhile_cons, hc,
          if_false, List.reverse_cons, List.reverse_append]
        simp [List.dropWhile_cons, isJsWs]
      have e2 : jsTrimL (c :: rest) =
          (List.dropWhile isJsWs (List.reverse rest ++ [c])).reverse := by
        simp only [jsTrimL, List.dropWhile_cons, hc, Bool.false_eq_true,
          if_false, List.reverse_cons]
      rw [e1, e2]

theorem jsNormalize_append_ws (x : List Char) :
    jsNormalize (x ++ [' ']) = jsNormalize x := by
  unfold jsNormalize collapseWs
  rcases collapseWsF_append_ws x false with h | h
  · rw [h]
  · rw [h, jsTrimL_append_ws]

theorem isStopAt_append_ws (W : List Char) (i : Nat) :
    isStopAt (W ++ [' ']) i ↔ isStopAt W i := by
  unfold isStopAt
  by_cases hi : i < W.length
  · rw [List.get?_append hi, List.take_append_of_le_length (by omega)]
  · constructor
    · rintro ⟨hg, _⟩
      exfalso
      have hlen : i < (W ++ [' ']).length := (List.get?_eq_some.mp hg).1
      simp only [List.length_append, List.length_cons, List.length_nil] at hlen
      have hieq : i = W.length := by omega
      subst hieq
      rw [List.get?_append_right (le_refl _)] at hg
      simp at hg
    · rintro ⟨hg, _⟩
      exfalso
      have := (List.get?_eq_some.mp hg).1
      omega

/-- C6: extractFullSignature accumulates at most the starting line plus
five more lines (joined by single spaces); it stops at the first closing
parenthesis at which the parenthesis depth returns to zero after having
been positive, returning exactly the text accumulated up to and including
that character with whitespace runs collapsed; if no such stop occurs
within the bounded window it returns the whole window normalized the same
way instead of failing. -/
theorem extractFullSignature_spec (lines : List String) (startLine : Nat) :
    (∀ i, isStopAt (signatureWindow lines startLine) i →
      (∀ j, j < i → ¬ isStopAt (signatureWindow lines startLine) j) →
      extractFullSignature lines startLine =
        jsNormalize ((signatureWindow lines startLine).take (i + 1))) ∧
    ((∀ i, i < (signatureWindow lines startLine).length →
        ¬ isStopAt (signatureWindow lines startLine) i) →
      extractFullSignature lines startLine =
        jsNormalize (signatureWindow lines startLine)) := by
  have hEL : extractFullSignature lines startLine =
      jsNormalize (match efsChars (joinTrail ((lines.drop startLine).take 6))
          [] 0 false with
        | .done s => s
        | .cont s _ _ => s) := by
    unfold extractFullSignature
    rw [efsLoop_eq_efsChars startLine (lines.drop startLine) startLine [] 0
      false (le_refl _) (by omega)]
    have h6 : 6 - (startLine - startLine) = 6 := by omega
    rw [h6]
  by_cases hempty : (lines.drop startLine).take 6 = []
  · have hW : signatureWindow lines startLine = [] := by
      unfold signatureWindow
      rw [hempty]
      rfl
    have hext : extractFullSignature lines startLine = jsNormalize [] := by
      rw [hEL, hempty]
      rfl
    constructor
    · intro i hstop _
      exfalso
      rw [hW] at hstop
      obtain ⟨hg, _⟩ := hstop
      simp at hg
    · intro _
      rw [hW, hext]
  · have hjoin : joinTrail ((lines.drop startLine).take 6) =
        signatureWindow lines startLine ++ [' '] := by
      unfold signatureWindow
      exact joinTrail_eq_joinSpace _ hempty
    constructor
    · intro i hstop hfirst
      have hlen : i < (signatureWindow lines startLine).length :=
        (List.get?_eq_some.mp hstop.1).1
      have hdone := efsChars_stop
        (signatureWindow lines startLine ++ [' ']) [] 0 false i
        ((stopsAt_zero_false _ _).mpr ((isStopAt_append_ws _ _).mpr hstop))
        (fun j hj hs => hfirst j hj
          ((isStopAt_append_ws _ _).mp ((stopsAt_zero_false _ _).mp hs)))
      rw [hEL, hjoin, hdone]
      have htake : (signatureWindow lines startLine ++ [' ']).take (i + 1) =
          (signatureWindow lines startLine).take (i + 1) :=
        List.take_append_of_le_length (by omega)
      rw [List.nil_append, htake]
    · intro hns
      have hnostop : ∀ j, ¬ stopsAt 0 false
          (signatureWindow lines startLine ++ [' ']) j := by
        intro j hs
        have hs2 := (stopsAt_zero_false _ _).mp hs
        by_cases hj : j < (signatureWindow lines startLine).length
        · exact hns j hj ((isStopAt_append_ws _ _).mp hs2)
        · obtain ⟨hg, _⟩ := hs2
          have hlen := (List.get?_eq_some.mp hg).1
          simp only [List.length_append, List.length_cons,
            List.length_nil] at hlen
          have hieq : j = (signatureWindow lines startLine).length := by omega
          subst hieq
          rw [List.get?_append_right (le_refl _)] at hg
          simp at hg
      obtain ⟨d2, f2, hcont⟩ := efsChars_nostop
        (signatureWindow lines startLine ++ [' ']) [] 0 false hnostop
      rw [hEL, hjoin, hcont, List.nil_append, jsNormalize_append_ws]

/-- C6 witness: a three-line signature stops at the closing parenthesis of
the parameter list and is returned normalized. -/
theorem extractFullSignature_spec_witness :
    extractFullSignature ["public void save(", "  User user", ") \x7b"] 0 =
      jsNormalize ((signatureWindow
        ["public void save(", "  User user", ") \x7b"] 0).take 31) :=
  (extractFullSignature_spec ["public void save(", "  User user", ") \x7b"] 0).1
    30 (by decide) (by decide)

/-! ## JavaDocParser.ts: cleanComment and parseJavadoc -/

/-- JS `raw.replace(/\/\*\*|\*\//g, "")`: delete every occurrence of the
block-comment opener or closer, scanning left to right (fuel is structural;
each step consumes at least one character, and the entry point passes the
text length). -/
def removeCommentMarksF : Nat → List Char → List Char
  | 0, cs => cs
  | _ + 1, [] => []
  | fuel + 1, c :: rest =>
    if startsWithL "/**".toList (c :: rest) then
      removeCommentMarksF fuel ((c :: rest).drop 3)
    else if startsWithL "*/".toList (c :: rest) then
      removeCommentMarksF fuel ((c :: rest).drop 2)
    else c :: removeCommentMarksF fuel rest

/-- JS `raw.replace(/\/\*\*|\*\//g, "")`. -/
def removeCommentMarks (cs : List Char) : List Char :=
  removeCommentMarksF cs.length cs

/-- JS `line.replace(/^\s*\*\s?/, "")`: remove the leading whitespace, one
star and at most one following whitespace character; without a star the
line is unchanged. -/
def stripLineStar (line : String) : String :=
  match line.toList.dropWhile isJsWs with
  | '*' :: rest =>
    (match rest with
     | [] => ""
     | c :: rest2 => if isJsWs c then rest2.asString else (c :: rest2).asString)
  | _ => line

/-- cleanComment from JavaDocParser.ts. -/
def cleanComment (raw : String) : String :=
  jsTrim (String.intercalate "\n"
    ((jsSplitNl (removeCommentMarks raw.toList).asString).map stripLineStar))

/-- JS `cleaned.search(/@\w+/)`: index of the first `@` followed by a word
character, none when absent. -/
def searchAtWord : List Char → Option Nat
  | '@' :: c :: rest =>
    if isWordChar c then some 0 else (searchAtWord (c :: rest)).map (· + 1)
  | _ :: rest => (searchAtWord rest).map (· + 1)
  | [] => none

/-- parseJavadoc from JavaDocParser.ts: split the cleaned comment at the
first tag marker into description and raw tag text. -/
def parseJavadoc (rawComment signature : String) : String × TagTable :=
  match searchAtWord (cleanComment rawComment).toList with
  | none => (cleanComment rawComment, parseTagTable "" signature)
  | some tagIndex =>
    (jsTrim ((cleanComment rawComment).toList.take tagIndex).asString,
     parseTagTable ((cleanComment rawComment).toList.drop tagIndex).asString
       signature)

/-- extractAccessModifierFromLine from JavaDocParser.ts. -/
def extractAccessModifierFromLine (line : String) : String :=
  if jsIncludes "public ".toList line.toList then "public"
  else if jsIncludes "protected ".toList line.toList then "protected"
  else if jsIncludes "private ".toList line.toList then "private"
  else "default"

/-- extractSignatureFromLine from JavaDocParser.ts: strip a same-line
method body and trim; an emptied line falls back to the original. -/
def extractSignatureFromLine (line : String) : String :=
  if (jsTrimL (removeBraceTail line.toList)).asString = "" then line
  else (jsTrimL (removeBraceTail line.toList)).asString

/-- JS `line.split("=")[0] ?? ""`. -/
def takeUntilEq : List Char → List Char
  | [] => []
  | c :: rest => if c = '=' then [] else c :: takeUntilEq rest

/-- JS `s.replace(/;$/, "")`: drop a single trailing semicolon. -/
def removeTrailingSemi (cs : List Char) : List Char :=
  if cs.getLast? = some ';' then cs.dropLast else cs

/-- JS `s.split(/\s+/)`: pieces between maximal whitespace runs (leading
and trailing runs contribute empty pieces, as in JS). -/
def splitWsRunsF : Bool → List Char → List Char → List String
  | _, [], acc => [acc.reverse.asString]
  | inWs, c :: rest, acc =>
    if isJsWs c then
      if inWs then splitWsRunsF true rest acc
      else acc.reverse.asString :: splitWsRunsF true rest []
    else splitWsRunsF false rest (c :: acc)

/-- extractFieldType from JavaDocParser.ts: the second-to-last
whitespace-separated token before any initializer. -/
def extractFieldType (line : String) : String :=
  let withoutSemicolon := jsTrimL (removeTrailingSemi (takeUntilEq line.toList))
  let parts := splitWsRunsF false withoutSemicolon []
  if parts.length ≥ 2 then parts.getD (parts.length - 2) "unknown"
  else "unknown"

example : extractFieldType "private static final int MAX_SIZE = 100;" = "int" := by
  decide
example : cleanComment "/**\n * Finds users.\n * @param id the id\n */" =
    "Finds users.\n@param id the id" := by decide

/-! ## SymbolResolver.ts and the parse assembly of JavaDocParser.ts -/

/-- The SymbolKind values the resolver distinguishes (SymbolResolver.ts);
cOther stands for every other vscode SymbolKind. -/
inductive SymbolKind where
  | cClass | cInterface | cEnum | cMethod | cConstructor | cFunction
  | cField | cConstant | cEnumMember | cOther
deriving DecidableEq, Repr

/-- A vscode DocumentSymbol, restricted to the fields the parser reads:
name, detail, kind, the full range's start and end lines, the selection
range's start line (optional, matching the `symbol.selectionRange?.start`
accesses) and the children. -/
inductive DocumentSymbol where
  | mk (name : String) (detail : String) (kind : SymbolKind)
      (rangeStart rangeEnd : Nat) (selectionRangeStart : Option Nat)
      (children : List DocumentSymbol)

def DocumentSymbol.name : DocumentSymbol → String
  | .mk n _ _ _ _ _ _ => n

def DocumentSymbol.detail : DocumentSymbol → String
  | .mk _ d _ _ _ _ _ => d

def DocumentSymbol.kind : DocumentSymbol → SymbolKind
  | .mk _ _ k _ _ _ _ => k

def DocumentSymbol.rangeStart : DocumentSymbol → Nat
  | .mk _ _ _ rs _ _ _ => rs

def DocumentSymbol.rangeEnd : DocumentSymbol → Nat
  | .mk _ _ _ _ re _ _ => re

def DocumentSymbol.selectionRangeStart : DocumentSymbol → Option Nat
  | .mk _ _ _ _ _ sr _ => sr

def DocumentSymbol.children : DocumentSymbol → List DocumentSymbol
  | .mk _ _ _ _ _ _ ch => ch

/-- isClassLikeSymbol from SymbolResolver.ts: Class, Interface or Enum. -/
def isClassLikeSymbol (s : DocumentSymbol) : Bool :=
  s.kind = .cClass || s.kind = .cInterface || s.kind = .cEnum

/-- isMethodSymbol from SymbolResolver.ts: Method or Constructor. -/
def isMethodSymbol (s : DocumentSymbol) : Bool :=
  s.kind = .cMethod || s.kind = .cConstructor

/-- isFieldSymbol from SymbolResolver.ts: Field or Constant. -/
def isFieldSymbol (s : DocumentSymbol) : Bool :=
  s.kind = .cField || s.kind = .cConstant

/-- FlattenedSymbol from JavaDocParser.ts. -/
structure FlattenedSymbol where
  symbol : DocumentSymbol
  belongsTo : String

/-- flattenSymbols from JavaDocParser.ts: containers are recursed into
with the dotted class path extended; methods and fields are collected with
the parent path ("Unknown" at top level); everything else is dropped. -/
def flattenSymbols : List DocumentSymbol → String → List FlattenedSymbol
  | [], _ => []
  | DocumentSymbol.mk n dt k rs re sr ch :: rest, parentName =>
    (if isClassLikeSymbol (.mk n dt k rs re sr ch) then
      (if ch.length > 0 then
        flattenSymbols ch (if parentName = "" then n else parentName ++ "." ++ n)
       else [])
     else if isMethodSymbol (.mk n dt k rs re sr ch) then
      [{ symbol := .mk n dt k rs re sr ch,
         belongsTo := if parentName = "" then "Unknown" else parentName }]
     else if isFieldSymbol (.mk n dt k rs re sr ch) then
      [{ symbol := .mk n dt k rs re sr ch,
         belongsTo := if parentName = "" then "Unknown" else parentName }]
     else []) ++ flattenSymbols rest parentName

/-- parseMethod from JavaDocParser.ts.  The try/catch of the source
protects against runtime exceptions; every operation in the body is total
here, so the catch branch (returning null) is unreachable and the function
returns the MethodDoc directly. -/
def parseMethod (text : String) (flattened : FlattenedSymbol) : MethodDoc :=
  let symbol := flattened.symbol
  let lines := jsSplitNl text
  let startLine := symbol.selectionRangeStart.getD symbol.rangeStart
  let fullSignature := extractFullSignature lines startLine
  let rawComment := extractComment text startLine
  let hasComment := rawComment.length > 0
  let dt := if hasComment then parseJavadoc rawComment fullSignature
            else ("", EMPTY_TAG_TABLE)
  { id := symbol.name ++ "_" ++ Nat.repr startLine,
    name := symbol.name,
    signature := if symbol.detail ≠ "" then symbol.detail
      else extractSignatureFromLine (lines.getD startLine ""),
    startLine := startLine,
    endLine := symbol.rangeEnd,
    hasComment := hasComment,
    description := dt.1,
    tags := dt.2,
    belongsTo := flattened.belongsTo,
    accessModifier := extractAccessModifierFromLine fullSignature }

/-- parseField from JavaDocParser.ts (same remark about the dead catch
branch as for parseMethod). -/
def parseField (text : String) (flattened : FlattenedSymbol) : FieldDoc :=
  let symbol := flattened.symbol
  let lines := jsSplitNl text
  let startLine := symbol.selectionRangeStart.getD symbol.rangeStart
  let lineText := jsTrim (lines.getD startLine "")
  let rawComment := extractComment text startLine
  let hasComment := rawComment.length > 0
  { name := symbol.name,
    type := if symbol.detail ≠ "" then symbol.detail
      else extractFieldType lineText,
    signature := lineText,
    startLine := startLine,
    hasComment := hasComment,
    description := if hasComment then cleanComment rawComment else "",
    isConstant := jsIncludes "static".toList lineText.toList &&
      jsIncludes "final".toList lineText.toList,
    accessModifier := extractAccessModifierFromLine lineText,
    belongsTo := flattened.belongsTo }

/-- Steps 3-4 of JavaDocParser.parse: flatten the symbol tree, keep the
method symbols, parse each and sort ascending by start line.  JS
`Array.prototype.sort` with the comparator `a.startLine - b.startLine` is a
stable ascending sort (ES2019), which is exactly `List.insertionSort` with
the non-strict key order.  The null filter of the source is the identity
here because parseMethod is total. -/
def parseMethods (symbols : List DocumentSymbol) (text : String) :
    List MethodDoc :=
  List.insertionSort (fun a b => a.startLine ≤ b.startLine)
    (((flattenSymbols symbols "").filter
      (fun fs => isMethodSymbol fs.symbol)).map (parseMethod text))

/-- Step 4.5 of JavaDocParser.parse: the field list, assembled the same
way. -/
def parseFields (symbols : List DocumentSymbol) (text : String) :
    List FieldDoc :=
  List.insertionSort (fun a b => a.startLine ≤ b.startLine)
    (((flattenSymbols symbols "").filter
      (fun fs => isFieldSymbol fs.symbol)).map (parseField text))

/-! ## Claim C4: ordering of the assembled member lists -/

/-- C4 (amended): after assembly every adjacent pair in each category's
list is ascending by start line (non-strict: `MemberDoc[i].startLine <=
MemberDoc[i+1].startLine`); equality occurs exactly when two declarations
report the same start line, so the strict form does not hold for every
input tree. -/
theorem parse_sorted_by_startLine (symbols : List DocumentSymbol)
    (text : String) :
    List.Chain' (fun a b => a.startLine ≤ b.startLine)
      (parseMethods symbols text) ∧
    List.Chain' (fun a b => a.startLine ≤ b.startLine)
      (parseFields symbols text) := by
  constructor
  · haveI : IsTotal MethodDoc (fun a b => a.startLine ≤ b.startLine) :=
      ⟨fun a b => Nat.le_total a.startLine b.startLine⟩
    haveI : IsTrans MethodDoc (fun a b => a.startLine ≤ b.startLine) :=
      ⟨fun _ _ _ hab hbc => Nat.le_trans hab hbc⟩
    exact (List.sorted_insertionSort _ _).chain'
  · haveI : IsTotal FieldDoc (fun a b => a.startLine ≤ b.startLine) :=
      ⟨fun a b => Nat.le_total a.startLine b.startLine⟩
    haveI : IsTrans FieldDoc (fun a b => a.startLine ≤ b.startLine) :=
      ⟨fun _ _ _ hab hbc => Nat.le_trans hab hbc⟩
    exact (List.sorted_insertionSort _ _).chain'

/-- C4 counterexample: the claimed strict ordering fails when two method
symbols report the same start line (which nothing prevents in the supplied
tree): both parsed methods have startLine 3 and the adjacent pair is not
strictly increasing. -/
theorem parse_sorted_strict_fails :
    ¬ List.Chain' (fun a b => a.startLine < b.startLine)
      (parseMethods [DocumentSymbol.mk "f" "" .cMethod 3 5 none [],
        DocumentSymbol.mk "g" "" .cMethod 3 5 none []] "") := by
  have hflat : flattenSymbols [DocumentSymbol.mk "f" "" .cMethod 3 5 none [],
      DocumentSymbol.mk "g" "" .cMethod 3 5 none []] "" =
      [{ symbol := DocumentSymbol.mk "f" "" .cMethod 3 5 none [],
         belongsTo := "Unknown" },
       { symbol := DocumentSymbol.mk "g" "" .cMethod 3 5 none [],
         belongsTo := "Unknown" }] := by
    simp [flattenSymbols, isClassLikeSymbol, isMethodSymbol, isFieldSymbol,
      DocumentSymbol.kind]
  have hout : parseMethods [DocumentSymbol.mk "f" "" .cMethod 3 5 none [],
      DocumentSymbol.mk "g" "" .cMethod 3 5 none []] "" =
      [{ id := "f_3", name := "f", signature := "", startLine := 3,
         endLine := 5, hasComment := false, description := "",
         tags := EMPTY_TAG_TABLE, belongsTo := "Unknown",
         accessModifier := "default" },
       { id := "g_3", name := "g", signature := "", startLine := 3,
         endLine := 5, hasComment := false, description := "",
         tags := EMPTY_TAG_TABLE, belongsTo := "Unknown",
         accessModifier := "default" }] := by
    unfold parseMethods
    rw [hflat]
    decide
  rw [hout]
  simp [List.chain'_cons]

/-! ## Claim C5: identity derivation and uniqueness -/

/-- The decimal digit list of a natural number, matching what
Nat.toDigitsCore produces with sufficient fuel. -/
def natDigits (n : Nat) : List Char :=
  if n < 10 then [Nat.digitChar n]
  else natDigits (n / 10) ++ [Nat.digitChar (n % 10)]
termination_by n
decreasing_by
  exact Nat.div_lt_self (by omega) (by omega)

theorem toDigitsCore_eq_natDigits :
    ∀ (fuel n : Nat) (acc : List Char), 0 < fuel → n < 10 ^ fuel →
    Nat.toDigitsCore 10 fuel n acc = natDigits n ++ acc := by
  intro fuel
  induction fuel with
  | zero => intro n acc h0 _; omega
  | succ f ih =>
    intro n acc _ hlt
    rw [Nat.toDigitsCore]
    by_cases hdiv : n / 10 = 0
    · have hn : n < 10 := by omega
      rw [if_pos hdiv, natDigits]
      rw [if_pos hn, Nat.mod_eq_of_lt hn]
      rfl
    · rw [if_neg hdiv]
      have hge : 10 ≤ n := by
        by_contra hge
        exact hdiv (Nat.div_eq_of_lt (by omega))
      have hf : 0 < f := by
        by_contra hf0
        have hf00 : f = 0 := by omega
        subst hf00
        have : (10 : Nat) ^ 1 = 10 := by norm_num
        omega
      have hlt2 : n / 10 < 10 ^ f := by
        rw [Nat.div_lt_iff_lt_mul (by omega)]
        calc n < 10 ^ (f + 1) := hlt
          _ = 10 ^ f * 10 := by ring
      rw [ih (n / 10) (Nat.digitChar (n % 10) :: acc) hf hlt2]
      have hnd : natDigits n = natDigits (n / 10) ++ [Nat.digitChar (n % 10)] := by
        rw [natDigits]
        rw [if_neg (by omega)]
      rw [hnd]
      simp

theorem natRepr_eq_natDigits (n : Nat) :
    Nat.repr n = (natDigits n).asString := by
  show (Nat.toDigits 10 n).asString = (natDigits n).asString
  unfold Nat.toDigits
  rw [toDigitsCore_eq_natDigits (n + 1) n [] (Nat.succ_pos n) ?_]
  · simp
  · calc n < 10 ^ n := Nat.lt_pow_self (by omega) n
      _ ≤ 10 ^ (n + 1) := Nat.pow_le_pow_right (by omega) (Nat.le_succ n)

theorem digitChar_inj_lt :
    ∀ a, a < 10 → ∀ b, b < 10 → Nat.digitChar a = Nat.digitChar b → a = b := by
  decide

theorem natDigits_ne_nil (n : Nat) : natDigits n ≠ [] := by
  rw [natDigits]
  split
  · simp
  · simp

theorem natDigits_inj : ∀ m n, natDigits m = natDigits n → m = n := by
  intro m
  induction m using Nat.strong_induction_on with
  | _ m ih =>
    intro n h
    by_cases hm : m < 10 <;> by_cases hn : n < 10
    · have hEm : natDigits m = [Nat.digitChar m] := by
        rw [natDigits]
        rw [if_pos hm]
      have hEn : natDigits n = [Nat.digitChar n] := by
        rw [natDigits]
        rw [if_pos hn]
      rw [hEm, hEn] at h
      exact digitChar_inj_lt m hm n hn (List.singleton_injective h)
    · have hEm : natDigits m = [Nat.digitChar m] := by
        rw [natDigits]
        rw [if_pos hm]
      have hEn : natDigits n = natDigits (n / 10) ++ [Nat.digitChar (n % 10)] := by
        rw [natDigits]
        rw [if_neg hn]
      rw [hEm, hEn] at h
      exfalso
      have hlen := congrArg List.length h
      simp only [List.length_append, List.length_cons, List.length_nil] at hlen
      have hpos : 0 < (natDigits (n / 10)).length :=
        List.length_pos.mpr (natDigits_ne_nil (n / 10))
      omega
    · have hEm : natDigits m = natDigits (m / 10) ++ [Nat.digitChar (m % 10)] := by
        rw [natDigits]
        rw [if_neg hm]
      have hEn : natDigits n = [Nat.digitChar n] := by
        rw [natDigits]
        rw [if_pos hn]
      rw [hEm, hEn] at h
      exfalso
      have hlen := congrArg List.length h
      simp only [List.length_append, List.length_cons, List.length_nil] at hlen
      have hpos : 0 < (natDigits (m / 10)).length :=
        List.length_pos.mpr (natDigits_ne_nil (m / 10))
      omega
    · have hEm : natDigits m = natDigits (m / 10) ++ [Nat.digitChar (m % 10)] := by
        rw [natDigits]
        rw [if_neg hm]
      have hEn : natDigits n = natDigits (n / 10) ++ [Nat.digitChar (n % 10)] := by
        rw [natDigits]
        rw [if_neg hn]
      rw [hEm, hEn] at h
      have hrev := congrArg List.reverse h
      simp only [List.reverse_append, List.reverse_cons, List.reverse_nil,
        List.nil_append, List.singleton_append, List.cons.injEq] at hrev
      obtain ⟨hdig, htail⟩ := hrev
      have hmod : m % 10 = n % 10 :=
        digitChar_inj_lt (m % 10) (Nat.mod_lt m (by omega)) (n % 10)
          (Nat.mod_lt n (by omega)) hdig
      have hdiveq : natDigits (m / 10) = natDigits (n / 10) := by
        have := congrArg List.reverse htail
        simpa using this
      have hdiv : m / 10 = n / 10 :=
        ih (m / 10) (Nat.div_lt_self (by omega) (by omega)) (n / 10) hdiveq
      omega

theorem natRepr_inj (m n : Nat) (h : Nat.repr m = Nat.repr n) : m = n := by
  rw [natRepr_eq_natDigits m, natRepr_eq_natDigits n] at h
  exact natDigits_inj m n (congrArg String.data h)

theorem digitChar_ne_underscore : ∀ d, d < 10 → Nat.digitChar d ≠ '_' := by
  decide

theorem natDigits_no_underscore (n : Nat) : '_' ∉ natDigits n := by
  induction n using Nat.strong_induction_on with
  | _ n ih =>
    by_cases hn : n < 10
    · have hE : natDigits n = [Nat.digitChar n] := by
        rw [natDigits]
        rw [if_pos hn]
      rw [hE, List.mem_singleton]
      exact fun hh => digitChar_ne_underscore n hn hh.symm
    · have hE : natDigits n = natDigits (n / 10) ++ [Nat.digitChar (n % 10)] := by
        rw [natDigits]
        rw [if_neg hn]
      rw [hE]
      intro hmem
      rcases List.mem_append.mp hmem with hmem | hmem
      · exact ih (n / 10) (Nat.div_lt_self (by omega) (by omega)) hmem
      · rw [List.mem_singleton] at hmem
        exact digitChar_ne_underscore (n % 10) (Nat.mod_lt n (by omega)) hmem.symm

theorem natRepr_no_underscore (n : Nat) : '_' ∉ (Nat.repr n).data := by
  rw [natRepr_eq_natDigits n]
  exact natDigits_no_underscore n

/-- Splitting an append at a separator element that occurs in neither of
the two prefixes: both sides around the separator coincide. -/
theorem append_cons_inj {α : Type} (x : α) :
    ∀ (u v s t : List α), x ∉ u → x ∉ v →
      u ++ x :: s = v ++ x :: t → u = v ∧ s = t := by
  intro u
  induction u with
  | nil =>
    intro v s t _ hv h
    cases v with
    | nil => simpa using h
    | cons c v2 =>
      exfalso
      simp only [List.nil_append, List.cons_append, List.cons.injEq] at h
      exact hv (by rw [h.1]; exact List.mem_cons_self c v2)
  | cons c u2 ihu =>
    intro v s t hu hv h
    cases v with
    | nil =>
      exfalso
      simp only [List.nil_append, List.cons_append, List.cons.injEq] at h
      exact hu (by rw [← h.1]; exact List.mem_cons_self c u2)
    | cons d v2 =>
      simp only [List.cons_append, List.cons.injEq] at h
      obtain ⟨hcd, hrest⟩ := h
      have hu2 : x ∉ u2 := fun hm => hu (List.mem_cons_of_mem c hm)
      have hv2 : x ∉ v2 := fun hm => hv (List.mem_cons_of_mem d hm)
      obtain ⟨huv, hst⟩ := ihu v2 s t hu2 hv2 hrest
      exact ⟨by rw [hcd, huv], hst⟩

/-- The member identity scheme name ++ "_" ++ repr startLine is injective
on the (name, startLine) pair whenever the decimal suffix is read from the
last underscore: the digits contain no underscore, so both components are
recovered. -/
theorem memberId_inj (a b : String) (m n : Nat)
    (h : a ++ "_" ++ Nat.repr m = b ++ "_" ++ Nat.repr n) : a = b ∧ m = n := by
  have hdata := congrArg String.data h
  simp only [String.data_append] at hdata
  have hdata2 : a.data ++ '_' :: (Nat.repr m).data =
      b.data ++ '_' :: (Nat.repr n).data := by
    simpa [List.append_assoc] using hdata
  have hrev := congrArg List.reverse hdata2
  simp only [List.reverse_append, List.reverse_cons, List.append_assoc,
    List.singleton_append] at hrev
  have hm : '_' ∉ (Nat.repr m).data.reverse := by
    rw [List.mem_reverse]
    exact natRepr_no_underscore m
  have hn : '_' ∉ (Nat.repr n).data.reverse := by
    rw [List.mem_reverse]
    exact natRepr_no_underscore n
  obtain ⟨hr, ha⟩ := append_cons_inj '_' _ _ _ _ hm hn hrev
  constructor
  · apply String.ext
    exact List.reverse_injective ha
  · apply natRepr_inj
    apply String.ext
    exact List.reverse_injective hr

/-- C5 (amended): in one parse pass every produced MethodDoc carries the
identity name ++ "_" ++ decimal start line, and these identities are
pairwise distinct PROVIDED the parsed start lines are pairwise distinct.
The unconditional claim fails: nothing prevents two declarations from
sharing a start line (see the counterexample), so the premise the spec
appeals to is an assumption, not an invariant. -/
theorem parseMethods_id_unique (symbols : List DocumentSymbol) (text : String)
    (hdist : (parseMethods symbols text).Pairwise
      (fun a b => a.startLine ≠ b.startLine)) :
    (∀ d ∈ parseMethods symbols text,
      d.id = d.name ++ "_" ++ Nat.repr d.startLine) ∧
    (parseMethods symbols text).Pairwise (fun a b => a.id ≠ b.id) := by
  have hid : ∀ d ∈ parseMethods symbols text,
      d.id = d.name ++ "_" ++ Nat.repr d.startLine := by
    intro d hd
    have hperm := List.perm_insertionSort
      (fun a b : MethodDoc => a.startLine ≤ b.startLine)
      (((flattenSymbols symbols "").filter
        (fun fs => isMethodSymbol fs.symbol)).map (parseMethod text))
    have hd2 : d ∈ ((flattenSymbols symbols "").filter
        (fun fs => isMethodSymbol fs.symbol)).map (parseMethod text) :=
      hperm.mem_iff.mp hd
    obtain ⟨fs, _, hfs⟩ := List.mem_map.mp hd2
    rw [← hfs]
    rfl
  refine ⟨hid, ?_⟩
  refine hdist.imp_of_mem ?_
  intro a b ha hb hne heq
  rw [hid a ha, hid b hb] at heq
  exact hne (memberId_inj _ _ _ _ heq).2

/-- C5 counterexample: two overloaded declarations reported on the same
start line (both named "f" at line 3, as `void f(int a) {} void f(String
a) {}` on one source line yields) produce the identical id "f_3" twice, so
the ids of one parse pass are not pairwise distinct and the start-line
uniqueness the spec appeals to does not hold for every input tree. -/
theorem parseMethods_id_not_unique :
    ¬ (parseMethods
        [DocumentSymbol.mk "f" "void f(int a)" .cMethod 3 3 none [],
         DocumentSymbol.mk "f" "void f(String a)" .cMethod 3 3 none []]
        "").Pairwise (fun a b => a.id ≠ b.id) := by
  have hflat : flattenSymbols
      [DocumentSymbol.mk "f" "void f(int a)" .cMethod 3 3 none [],
       DocumentSymbol.mk "f" "void f(String a)" .cMethod 3 3 none []] "" =
      [{ symbol := DocumentSymbol.mk "f" "void f(int a)" .cMethod 3 3 none [],
         belongsTo := "Unknown" },
       { symbol := DocumentSymbol.mk "f" "void f(String a)" .cMethod 3 3 none [],
         belongsTo := "Unknown" }] := by
    simp [flattenSymbols, isClassLikeSymbol, isMethodSymbol, isFieldSymbol,
      DocumentSymbol.kind]
  have hout : parseMethods
      [DocumentSymbol.mk "f" "void f(int a)" .cMethod 3 3 none [],
       DocumentSymbol.mk "f" "void f(String a)" .cMethod 3 3 none []] "" =
      [{ id := "f_3", name := "f", signature := "void f(int a)",
         startLine := 3, endLine := 3, hasComment := false, description := "",
         tags := EMPTY_TAG_TABLE, belongsTo := "Unknown",
         accessModifier := "default" },
       { id := "f_3", name := "f", signature := "void f(String a)",
         startLine := 3, endLine := 3, hasComment := false, description := "",
         tags := EMPTY_TAG_TABLE, belongsTo := "Unknown",
         accessModifier := "default" }] := by
    unfold parseMethods
    rw [hflat]
    decide
  rw [hout]
  simp [List.pairwise_cons]

/-- C5 witness: on a tree with two methods at distinct start lines the
amended theorem applies, its start-line hypothesis discharged on the
concrete output. -/
theorem parseMethods_id_unique_witness :
    (∀ d ∈ parseMethods [DocumentSymbol.mk "f" "" .cMethod 3 5 none [],
        DocumentSymbol.mk "g" "" .cMethod 7 9 none []] "",
      d.id = d.name ++ "_" ++ Nat.repr d.startLine) ∧
    (parseMethods [DocumentSymbol.mk "f" "" .cMethod 3 5 none [],
        DocumentSymbol.mk "g" "" .cMethod 7 9 none []] "").Pairwise
      (fun a b => a.id ≠ b.id) := by
  have hflat : flattenSymbols [DocumentSymbol.mk "f" "" .cMethod 3 5 none [],
      DocumentSymbol.mk "g" "" .cMethod 7 9 none []] "" =
      [{ symbol := DocumentSymbol.mk "f" "" .cMethod 3 5 none [],
         belongsTo := "Unknown" },
       { symbol := DocumentSymbol.mk "g" "" .cMethod 7 9 none [],
         belongsTo := "Unknown" }] := by
    simp [flattenSymbols, isClassLikeSymbol, isMethodSymbol, isFieldSymbol,
      DocumentSymbol.kind]
  have hout : parseMethods [DocumentSymbol.mk "f" "" .cMethod 3 5 none [],
      DocumentSymbol.mk "g" "" .cMethod 7 9 none []] "" =
      [{ id := "f_3", name := "f", signature := "", startLine := 3,
         endLine := 5, hasComment := false, description := "",
         tags := EMPTY_TAG_TABLE, belongsTo := "Unknown",
         accessModifier := "default" },
       { id := "g_7", name := "g", signature := "", startLine := 7,
         endLine := 9, hasComment := false, description := "",
         tags := EMPTY_TAG_TABLE, belongsTo := "Unknown",
         accessModifier := "default" }] := by
    unfold parseMethods
    rw [hflat]
    decide
  exact parseMethods_id_unique _ _ (by rw [hout]; decide)

/-! ## Claim C8: debounce

The closure of utils/debounce.ts keeps a single timer handle: on every
invocation a still-pending timer is cleared (clearTimeout) and a new one is
scheduled (setTimeout) to run the wrapped callback with the current
arguments `delay` milliseconds later; the callback resets the handle.

Discrete-event embedding: the invocation sequence is a list of
(time, argument) pairs in event order; the single mutable timer handle is
the `pending` parameter, an optional (fireTime, argument) pair.  A pending
timer whose fire time has been reached fires before the next invocation is
handled (the event loop runs the earlier-due task first); an invocation
always replaces the pending timer by (now + delay, freshArgs), which is
exactly the clearTimeout/setTimeout pair of the source.  The result is the
list of deliveries (fireTime, argument) to the wrapped callback. -/

def debounceRun {α : Type} (delay : Nat) :
    List (Nat × α) → Option (Nat × α) → List (Nat × α)
  | [], none => []
  | [], some p => [p]
  | (t, a) :: rest, none => debounceRun delay rest (some (t + delay, a))
  | (t, a) :: rest, some (ft, b) =>
    if ft ≤ t then (ft, b) :: debounceRun delay rest (some (t + delay, a))
    else debounceRun delay rest (some (t + delay, a))

theorem debounceRun_aux {α : Type} (delay : Nat) :
    ∀ (calls : List (Nat × α)) (t : Nat) (a : α),
      List.Chain' (fun p q => p.1 < q.1 ∧ q.1 < p.1 + delay) ((t, a) :: calls) →
      debounceRun delay calls (some (t + delay, a)) =
        [((calls.getLastD (t, a)).1 + delay, (calls.getLastD (t, a)).2)] := by
  intro calls
  induction calls with
  | nil =>
    intro t a _
    rfl
  | cons hd rest ih =>
    intro t a hch
    obtain ⟨t2, a2⟩ := hd
    rw [List.chain'_cons] at hch
    obtain ⟨⟨hlt, hgap⟩, hch2⟩ := hch
    show debounceRun delay ((t2, a2) :: rest) (some (t + delay, a)) = _
    rw [debounceRun, if_neg (by omega)]
    rw [ih t2 a2 hch2]
    rw [List.getLastD_cons]

/-- C8: for every burst of invocations of the debounced function — event
times strictly increasing, each arriving strictly within `delay` of the
previous one — followed by silence, the wrapped callback is delivered
exactly once, at the last invocation's time plus `delay`, carrying the
last invocation's arguments: every earlier scheduled run is cancelled
before its fire time is reached. -/
theorem debounce_burst {α : Type} (delay : Nat) (first : Nat × α)
    (rest : List (Nat × α))
    (hch : List.Chain' (fun p q => p.1 < q.1 ∧ q.1 < p.1 + delay)
      (first :: rest)) :
    debounceRun delay (first :: rest) none =
      [((rest.getLastD first).1 + delay, (rest.getLastD first).2)] := by
  obtain ⟨t, a⟩ := first
  show debounceRun delay ((t, a) :: rest) none = _
  rw [debounceRun]
  exact debounceRun_aux delay rest t a hch

/-- C8 witness: calls at t = 0, 50, 90 with delay 300 yield the single
delivery (390, third argument). -/
theorem debounce_burst_witness :
    List.Chain' (fun p q : Nat × Nat => p.1 < q.1 ∧ q.1 < p.1 + 300)
      [(0, 0), (50, 1), (90, 2)] ∧
    debounceRun 300 [(0, 0), (50, 1), (90, 2)] none = [(390, 2)] :=
  ⟨by simp [List.chain'_cons], debounce_burst 300 (0, 0) [(50, 1), (90, 2)]
    (by simp [List.chain'_cons])⟩

/-! ## Claim C9: updateHighlight messaging

SidebarProvider.updateHighlight (SidebarProvider.ts lines 235-253): binary
search for the method containing the cursor line, `newId = method?.id ??
null`; if `newId === lastHighlightId` return without posting; otherwise
store `newId` and, only when `newId` is truthy (non-null and not the empty
string), post `{ type: 'highlightMethod', payload: { id: newId } }`.  No
other postMessage occurs in this method; in particular no clearing message
is ever sent from here.  The downstream messages this provider can post
are modelled by `DownstreamMsg`; updateHighlight is a pure function of the
current method list, the stored last id and the cursor line, returning the
new stored id and the posted messages in order. -/

inductive DownstreamMsg
  | updateViewMsg
  | clearViewMsg
  | highlightMethod (id : String)
  deriving DecidableEq, Repr

def updateHighlight (methods : List MethodDoc) (lastHighlightId : Option String)
    (cursorLine : Nat) : Option String × List DownstreamMsg :=
  if (binarySearchMethod methods cursorLine).map (fun m => m.id) =
      lastHighlightId then
    (lastHighlightId, [])
  else
    ((binarySearchMethod methods cursorLine).map (fun m => m.id),
     match (binarySearchMethod methods cursorLine).map (fun m => m.id) with
     | some i => if i = "" then [] else [DownstreamMsg.highlightMethod i]
     | none => [])

/-- C9: in any call of updateHighlight — hence after any prefix of a call
sequence, whatever stored id it produced — every posted message is a
highlightMethod carrying exactly the freshly computed containing-method
id, which is non-null and differs from the stored id (so nothing is posted
on a repeat and never a clear); and when the cursor line is contained in
no method the stored id becomes null and no message of any kind is
posted. -/
theorem updateHighlight_spec (methods : List MethodDoc)
    (last : Option String) (cursorLine : Nat) :
    (∀ msg ∈ (updateHighlight methods last cursorLine).2,
      ∃ i, msg = DownstreamMsg.highlightMethod i ∧
        (binarySearchMethod methods cursorLine).map (fun m => m.id) = some i ∧
        some i ≠ last) ∧
    (binarySearchMethod methods cursorLine = none →
      updateHighlight methods last cursorLine = (none, [])) := by
  constructor
  · intro msg hmsg
    rw [updateHighlight] at hmsg
    by_cases heq : (binarySearchMethod methods cursorLine).map
        (fun m => m.id) = last
    · rw [if_pos heq] at hmsg
      simp at hmsg
    · rw [if_neg heq] at hmsg
      cases hB : (binarySearchMethod methods cursorLine).map (fun m => m.id) with
      | none =>
        rw [hB] at hmsg
        simp at hmsg
      | some i =>
        rw [hB] at hmsg
        dsimp only at hmsg
        by_cases hi : i = ""
        · rw [if_pos hi] at hmsg
          simp at hmsg
        · rw [if_neg hi] at hmsg
          rw [List.mem_singleton] at hmsg
          exact ⟨i, hmsg, rfl, fun hc => heq (hB.trans hc)⟩
  · intro hB
    rw [updateHighlight, hB]
    by_cases heq : (none : Option String) = last
    · rw [if_pos (by simpa using heq)]
      simp [← heq]
    · rw [if_neg (by simpa using heq)]
      simp

/-- C9 witness: one method spanning lines 2-4, stored highlight id "a";
the cursor moves to line 5, contained in no method: the stored id becomes
null and no message is posted. -/
theorem updateHighlight_spec_witness :
    updateHighlight [mkMethodSpan 2 4 "a"] (some "a") 5 = (none, []) :=
  (updateHighlight_spec [mkMethodSpan 2 4 "a"] (some "a") 5).2 (by decide)
